import Mathlib

/-!
Verification of `cmd/openapi-extractor/main.go` (ironcore-dev/openapi-extractor).

The development shallowly embeds the orchestration layer of the extractor:

* the readiness poller `waitForAPIServicesOpenAPIV3`, built on
  `wait.PollUntilContextTimeout(ctx, 1s, timeout, true, cond)`: the per-round
  condition re-probes every still-unconfirmed group-version with a HEAD request
  and keeps the failing ones for the next round;
* the orchestrator `extractOpenAPI` with its two deferred teardown calls;
* the extraction loop `extractOpenAPIv3` / `extractOpenAPIv2` / `getPath`;
* the persistence helper `writeJSONFile` (`os.MkdirAll`, `json.Indent` with
  prefix `""` and indent `"\t"`, `filepath.Join(dir, filepath.Base(name))`,
  `os.WriteFile`).

External effects (HTTP responses, filesystem outcomes, cancellation) are
supplied as explicit oracles; time is discretised into poll rounds (the code
uses a fixed 1-second cadence, so the timeout corresponds to a maximal number
of rounds).  Machine-level details of the Go runtime are out of scope; the
`encoding/json` indent/compact transforms and the `path/filepath` functions
`Base`, `Clean` and `Join` are modelled at token / path-component granularity,
following the documented behaviour of the Go standard library.
-/

/-! ## Group-versions and the readiness set -/

/-- A `schema.GroupVersion`: the `(Spec.Group, Spec.Version)` pair of a
registered `APIService`. -/
structure GroupVersion where
  group : String
  version : String
deriving DecidableEq

/-- `schema.GroupVersion.String()`: `"<group>/<version>"`, or just the version
when the group is empty. -/
def GroupVersion.gvString (gv : GroupVersion) : String :=
  if gv.group = "" then gv.version else gv.group ++ "/" ++ gv.version

/-- Insertion into the `sets.New[schema.GroupVersion]` set used by the poller:
a duplicate insert leaves the set unchanged. -/
def insertGV (l : List GroupVersion) (gv : GroupVersion) : List GroupVersion :=
  if gv ∈ l then l else l ++ [gv]

/-- `testGVs := sets.New(...); for _, svc := range services { testGVs.Insert(...) }`:
the initial readiness set built from the registered API services. -/
def gvSetOf (services : List GroupVersion) : List GroupVersion :=
  services.foldl insertGV []

/-- Comparison used by `sortedGroupVersions`: `gvs[i].String() < gvs[j].String()`. -/
def gvLt (a b : GroupVersion) : Bool :=
  decide (a.gvString < b.gvString)

/-- Insert into a list sorted by `gvLt`. -/
def insertSortedGV (gv : GroupVersion) : List GroupVersion → List GroupVersion
  | [] => [gv]
  | x :: xs => if gvLt gv x then gv :: x :: xs else x :: insertSortedGV gv xs

/-- `sortedGroupVersions`: sorts group-versions by their `String()` rendering
(`sort.Slice` in the source, modelled by insertion sort). -/
def sortedGroupVersions (l : List GroupVersion) : List GroupVersion :=
  l.foldr insertSortedGV []

/-! ## The readiness poller

`waitForAPIServicesOpenAPIV3` runs
`wait.PollUntilContextTimeout(ctx, 1*time.Second, timeout, true, cond)` where
`cond` probes every group-version still in `testGVs` (a HEAD request on its
`/openapi/v3/apis/<group>/<version>` path), collects the failures into
`newTestGVs`, finishes when that set is empty and otherwise installs it as the
set for the next round after logging the sorted unready list.

The probe outcomes are an oracle `probe gv round`; the overall deadline allows
`maxRounds` condition invocations; an external cancellation that fires while
round `c` is in flight is observed at the top of round `c + 1` (the poll loop
re-checks the context between condition invocations). -/

/-- One poll round: the condition function keeps exactly the group-versions
whose probe failed (`newTestGVs`). The whole pre-round set is probed; there is
no early exit inside a round. -/
def probeRound (probe : GroupVersion → Nat → Bool) (round : Nat)
    (gvs : List GroupVersion) : List GroupVersion :=
  gvs.filter (fun gv => !probe gv round)

/-- The readiness set after `n` completed rounds (ignoring termination):
round `i` filters with the probes of round `i`. -/
def remainingAfter (probe : GroupVersion → Nat → Bool) (gvs0 : List GroupVersion) :
    Nat → List GroupVersion
  | 0 => gvs0
  | n + 1 => probeRound probe n (remainingAfter probe gvs0 n)

/-- Terminal states of the poll loop: all probes succeeded, the deadline
elapsed, or the surrounding context was cancelled. -/
inductive PollResult where
  | allReady
  | timedOut
  | cancelled
deriving DecidableEq

/-- Observable outcome of one poller run: terminal state, the set of
still-unconfirmed group-versions at termination, the number of completed
rounds, and the sorted unready sets logged after each unsuccessful round. -/
structure PollRun where
  result : PollResult
  remaining : List GroupVersion
  roundsExecuted : Nat
  unreadyLogs : List (List GroupVersion)
deriving DecidableEq

/-- Whether, at the top of round `round`, a cancellation that fired during
round `c` has been observed (`c < round`). -/
def cancelObserved (cancelAt : Option Nat) (round : Nat) : Bool :=
  match cancelAt with
  | none => false
  | some c => decide (c < round)

/-- The poll loop of `wait.PollUntilContextTimeout` specialised to the
condition function of `waitForAPIServicesOpenAPIV3`.  `fuel` is the number of
condition invocations the deadline still allows. -/
def pollRounds (probe : GroupVersion → Nat → Bool) (cancelAt : Option Nat) :
    Nat → Nat → List GroupVersion → List (List GroupVersion) → PollRun
  | 0, round, gvs, logs => ⟨.timedOut, gvs, round, logs⟩
  | fuel + 1, round, gvs, logs =>
    if cancelObserved cancelAt round then ⟨.cancelled, gvs, round, logs⟩
    else
      let next := probeRound probe round gvs
      if next.isEmpty then ⟨.allReady, [], round + 1, logs⟩
      else pollRounds probe cancelAt fuel (round + 1) next
        (logs ++ [sortedGroupVersions next])

/-- A full poller run: the initial set is the deduplicated `testGVs` built
from the registered services, starting at round `0` with empty logs. -/
def pollRun (probe : GroupVersion → Nat → Bool) (cancelAt : Option Nat)
    (maxRounds : Nat) (services : List GroupVersion) : PollRun :=
  pollRounds probe cancelAt maxRounds 0 (gvSetOf services) []

/-- The error `wait.PollUntilContextTimeout` hands back for each terminal
state: `ctx.Err()` rendered as Go prints it. -/
def pollBaseErr : PollResult → Option String
  | .timedOut => some "context deadline exceeded"
  | .cancelled => some "context canceled"
  | .allReady => none

/-- The error value `waitForAPIServicesOpenAPIV3` returns:
`fmt.Errorf("error waiting for api services to become available: %w", err)`. -/
def waitForAPIServicesErr (r : PollResult) : Option String :=
  (pollBaseErr r).map
    (fun s => "error waiting for api services to become available: " ++ s)

/-- `waitForAPIServicesOpenAPIV3`, assembled: run the poll loop, and wrap the
context error (if any) in the function's error message. -/
def waitForAPIServicesOpenAPIV3 (probe : GroupVersion → Nat → Bool)
    (cancelAt : Option Nat) (maxRounds : Nat) (services : List GroupVersion) :
    PollRun × Option String :=
  let run := pollRun probe cancelAt maxRounds services
  (run, waitForAPIServicesErr run.result)

/-- Substring test used to state what an error message does (not) mention:
`startsWithL needle hay` holds when `needle` is an initial segment of `hay`. -/
def startsWithL : List Char → List Char → Bool
  | [], _ => true
  | _ :: _, [] => false
  | a :: as, b :: bs => a = b && startsWithL as bs

/-- `containsSub needle hay`: `needle` occurs contiguously inside `hay`. -/
def containsSub : List Char → List Char → Bool
  | n, [] => startsWithL n []
  | n, c :: r => startsWithL n (c :: r) || containsSub n r

/-! ## Poller lemmas -/

/-- The set after `n` rounds is exactly the initial set filtered to the
group-versions that failed every probe of rounds `0 .. n-1`. -/
theorem remainingAfter_eq_filter (probe : GroupVersion → Nat → Bool)
    (gvs0 : List GroupVersion) (n : Nat) :
    remainingAfter probe gvs0 n =
      gvs0.filter (fun gv => (List.range n).all (fun i => !probe gv i)) := by
  induction n with
  | zero => simp [remainingAfter]
  | succ n ih =>
    simp only [remainingAfter, probeRound, ih, List.filter_filter]
    apply List.filter_congr
    intro gv _
    simp [List.range_succ, List.all_append, Bool.and_comm]

/-- Each round's output is a sublist of its input. -/
theorem remainingAfter_succ_sublist (probe : GroupVersion → Nat → Bool)
    (gvs0 : List GroupVersion) (n : Nat) :
    (remainingAfter probe gvs0 (n + 1)).Sublist (remainingAfter probe gvs0 n) :=
  List.filter_sublist _

/-- Monotonicity across any number of rounds. -/
theorem remainingAfter_sublist_of_le (probe : GroupVersion → Nat → Bool)
    (gvs0 : List GroupVersion) {m n : Nat} (h : m ≤ n) :
    (remainingAfter probe gvs0 n).Sublist (remainingAfter probe gvs0 m) := by
  induction n with
  | zero => simp_all
  | succ n ih =>
    rcases Nat.lt_or_ge m (n + 1) with hlt | hge
    · exact (remainingAfter_succ_sublist probe gvs0 n).trans (ih (Nat.lt_succ_iff.mp hlt))
    · have : m = n + 1 := Nat.le_antisymm h hge
      subst this
      exact List.Sublist.refl _

/-- If the deadline allows `fuel` more rounds and the set stays non-empty for
all of them, the loop times out with exactly the set after those rounds, and
logs the sorted unready set after each unsuccessful round. -/
theorem pollRounds_timeout (probe : GroupVersion → Nat → Bool)
    (gvs0 : List GroupVersion) :
    ∀ (fuel r : Nat) (logs : List (List GroupVersion)),
      remainingAfter probe gvs0 (r + fuel) ≠ [] →
      pollRounds probe none fuel r (remainingAfter probe gvs0 r) logs =
        ⟨.timedOut, remainingAfter probe gvs0 (r + fuel), r + fuel,
         logs ++ (List.range fuel).map
           (fun i => sortedGroupVersions (remainingAfter probe gvs0 (r + i + 1)))⟩ := by
  intro fuel
  induction fuel with
  | zero => intro r logs _; simp [pollRounds]
  | succ fuel ih =>
    intro r logs hne
    have hne1 : remainingAfter probe gvs0 (r + 1) ≠ [] := by
      intro hemp
      apply hne
      have hsub := remainingAfter_sublist_of_le probe gvs0
        (Nat.add_le_add_left (Nat.succ_le_succ (Nat.zero_le fuel)) r)
      rw [hemp] at hsub
      exact List.sublist_nil.mp hsub
    have hstep : probeRound probe r (remainingAfter probe gvs0 r) =
        remainingAfter probe gvs0 (r + 1) := rfl
    have hrec := ih (r + 1) (logs ++ [sortedGroupVersions (remainingAfter probe gvs0 (r + 1))])
      (by rw [show r + 1 + fuel = r + (fuel + 1) by omega]; exact hne)
    have hnotEmp : ¬ ((remainingAfter probe gvs0 (r + 1)).isEmpty = true) := by
      simp [List.isEmpty_iff, hne1]
    simp only [pollRounds, cancelObserved, hstep]
    rw [if_neg hnotEmp]
    rw [hrec]
    have harith : r + 1 + fuel = r + (fuel + 1) := by omega
    have hmaps : (List.range (fuel + 1)).map
          (fun i => sortedGroupVersions (remainingAfter probe gvs0 (r + i + 1))) =
        sortedGroupVersions (remainingAfter probe gvs0 (r + 1)) ::
          (List.range fuel).map
            (fun i => sortedGroupVersions (remainingAfter probe gvs0 (r + 1 + i + 1))) := by
      rw [List.range_succ_eq_map, List.map_cons, List.map_map]
      refine congrArg₂ _ (by norm_num) ?_
      apply List.map_congr_left
      intro i _
      have : r + Nat.succ i + 1 = r + 1 + i + 1 := by omega
      simp [Function.comp, this]
    rw [hmaps, harith]
    simp

/-- If the set is still non-empty through round `c + 1` and the deadline
allows at least `c + 2` rounds, a cancellation firing during round `c` is
observed at the top of round `c + 1`. -/
theorem pollRounds_cancel (probe : GroupVersion → Nat → Bool)
    (gvs0 : List GroupVersion) (c : Nat) :
    ∀ (fuel r : Nat) (logs : List (List GroupVersion)),
      r ≤ c + 1 → c + 2 ≤ r + fuel →
      (∀ n, r ≤ n → n ≤ c + 1 → remainingAfter probe gvs0 n ≠ []) →
      (pollRounds probe (some c) fuel r (remainingAfter probe gvs0 r) logs).result
          = .cancelled ∧
      (pollRounds probe (some c) fuel r (remainingAfter probe gvs0 r) logs).roundsExecuted
          = c + 1 ∧
      (pollRounds probe (some c) fuel r (remainingAfter probe gvs0 r) logs).remaining
          = remainingAfter probe gvs0 (c + 1) := by
  intro fuel
  induction fuel with
  | zero => intro r logs h1 h2 _; omega
  | succ fuel ih =>
    intro r logs h1 h2 hpoll
    by_cases hr : r = c + 1
    · subst hr
      simp [pollRounds, cancelObserved]
    · have hrle : r ≤ c := by omega
      have hcanc : cancelObserved (some c) r = false := by
        simp [cancelObserved]; omega
      have hstep : probeRound probe r (remainingAfter probe gvs0 r) =
          remainingAfter probe gvs0 (r + 1) := rfl
      have hne1 : remainingAfter probe gvs0 (r + 1) ≠ [] :=
        hpoll (r + 1) (by omega) (by omega)
      have hrec := ih (r + 1) (logs ++ [sortedGroupVersions (remainingAfter probe gvs0 (r + 1))])
        (by omega) (by omega) (fun n hn1 hn2 => hpoll n (by omega) hn2)
      have hnotEmp : ¬ ((remainingAfter probe gvs0 (r + 1)).isEmpty = true) := by
        simp [List.isEmpty_iff, hne1]
      simp only [pollRounds, hcanc, hstep, if_false]
      rw [if_neg hnotEmp]
      exact hrec

/-! ## Claims about the readiness poller -/

/-- C3: across successive poll rounds, the still-unconfirmed set is
non-increasing: round `n + 1` probes exactly the filtered output of round `n`
(the full pre-round set is filtered in one pass, with no early exit), the new
set is a sublist (hence subset, hence no smaller-set regrowth) of the old one,
and a group-version absent from round `n`'s set never re-enters. -/
theorem readiness_set_nonincreasing (probe : GroupVersion → Nat → Bool)
    (gvs0 : List GroupVersion) (n : Nat) :
    remainingAfter probe gvs0 (n + 1) = probeRound probe n (remainingAfter probe gvs0 n) ∧
    (remainingAfter probe gvs0 (n + 1)).Sublist (remainingAfter probe gvs0 n) ∧
    (remainingAfter probe gvs0 (n + 1)).length ≤ (remainingAfter probe gvs0 n).length ∧
    ∀ gv, gv ∉ remainingAfter probe gvs0 n → gv ∉ remainingAfter probe gvs0 (n + 1) := by
  refine ⟨rfl, remainingAfter_succ_sublist probe gvs0 n,
    (remainingAfter_succ_sublist probe gvs0 n).length_le, ?_⟩
  intro gv h hmem
  exact h ((remainingAfter_succ_sublist probe gvs0 n).subset hmem)

/-- Witness for C3 at a concrete probe and registered set: the group-version
confirmed in round 0 is absent from the set of round 1 and stays absent in
round 2. -/
theorem readiness_set_nonincreasing_witness :
    (⟨"a", "v1"⟩ : GroupVersion) ∉
        remainingAfter (fun gv _ => gv.group == "a") [⟨"a", "v1"⟩, ⟨"b", "v1"⟩] 1 ∧
    (⟨"a", "v1"⟩ : GroupVersion) ∉
        remainingAfter (fun gv _ => gv.group == "a") [⟨"a", "v1"⟩, ⟨"b", "v1"⟩] 2 :=
  ⟨by decide,
   (readiness_set_nonincreasing (fun gv _ => gv.group == "a")
     [⟨"a", "v1"⟩, ⟨"b", "v1"⟩] 1).2.2.2 _ (by decide)⟩

/-- C1 (amended): when the registered set is non-empty and the deadline is too
short (the set is still non-empty after all `maxRounds` rounds), the poller
terminates `timedOut`; its terminal state holds exactly the group-versions
that never probed successfully before expiry, and the last pre-expiry log
entry lists them (sorted); the returned error value, however, is the fixed
wrapped context error and does not itself enumerate them. -/
theorem timeout_reports_unready_via_state_and_logs
    (probe : GroupVersion → Nat → Bool) (services : List GroupVersion)
    (maxRounds : Nat) (_hne : services ≠ [])
    (hshort : remainingAfter probe (gvSetOf services) maxRounds ≠ []) :
    (waitForAPIServicesOpenAPIV3 probe none maxRounds services).1.result = .timedOut ∧
    (waitForAPIServicesOpenAPIV3 probe none maxRounds services).1.remaining =
      (gvSetOf services).filter
        (fun gv => (List.range maxRounds).all (fun i => !probe gv i)) ∧
    (waitForAPIServicesOpenAPIV3 probe none maxRounds services).2 =
      some "error waiting for api services to become available: context deadline exceeded" ∧
    ∀ m, maxRounds = m + 1 →
      (waitForAPIServicesOpenAPIV3 probe none maxRounds services).1.unreadyLogs.getLast? =
        some (sortedGroupVersions
          ((gvSetOf services).filter
            (fun gv => (List.range maxRounds).all (fun i => !probe gv i)))) := by
  have key := pollRounds_timeout probe (gvSetOf services) maxRounds 0 []
    (by simpa using hshort)
  rw [show remainingAfter probe (gvSetOf services) 0 = gvSetOf services from rfl] at key
  simp only [Nat.zero_add, List.nil_append] at key
  have hrun : pollRun probe none maxRounds services =
      ⟨.timedOut, remainingAfter probe (gvSetOf services) maxRounds, maxRounds,
       (List.range maxRounds).map
         (fun i => sortedGroupVersions (remainingAfter probe (gvSetOf services) (i + 1)))⟩ := by
    rw [pollRun, key]
  refine ⟨?_, ?_, ?_, ?_⟩
  · simp [waitForAPIServicesOpenAPIV3, hrun]
  · simp [waitForAPIServicesOpenAPIV3, hrun, remainingAfter_eq_filter]
  · simp [waitForAPIServicesOpenAPIV3, hrun, waitForAPIServicesErr, pollBaseErr]
  · intro m hm
    subst hm
    simp only [waitForAPIServicesOpenAPIV3, hrun]
    rw [List.range_succ, List.map_append, List.map_cons, List.map_nil,
      List.getLast?_concat]
    rw [remainingAfter_eq_filter]
    rw [List.range_succ]

/-- Witness for C1 (amended): a single never-ready group-version with a
one-round deadline. -/
theorem timeout_reports_unready_via_state_and_logs_witness :
    ([⟨"g", "v1"⟩] : List GroupVersion) ≠ [] ∧
    remainingAfter (fun _ _ => false) (gvSetOf [⟨"g", "v1"⟩]) 1 ≠ [] ∧
    (waitForAPIServicesOpenAPIV3 (fun _ _ => false) none 1 [⟨"g", "v1"⟩]).1.result
      = .timedOut :=
  ⟨by decide, by decide,
   (timeout_reports_unready_via_state_and_logs (fun _ _ => false) [⟨"g", "v1"⟩] 1
     (by decide) (by decide)).1⟩

/-- C1 counterexample: the claim as stated is false — the error value returned
at the deadline is the fixed wrapped `context deadline exceeded` message and
does not enumerate (or even mention) the still-outstanding group-version
`foo.example.com/v1`, which only the terminal state carries. -/
theorem timeout_error_value_omits_unready_gvs :
    (waitForAPIServicesOpenAPIV3 (fun _ _ => false) none 2
        [⟨"foo.example.com", "v1"⟩]).1.result = .timedOut ∧
    (waitForAPIServicesOpenAPIV3 (fun _ _ => false) none 2
        [⟨"foo.example.com", "v1"⟩]).1.remaining = [⟨"foo.example.com", "v1"⟩] ∧
    (waitForAPIServicesOpenAPIV3 (fun _ _ => false) none 2
        [⟨"foo.example.com", "v1"⟩]).2 =
      some "error waiting for api services to become available: context deadline exceeded" ∧
    containsSub (GroupVersion.gvString ⟨"foo.example.com", "v1"⟩).data
      ("error waiting for api services to become available: context deadline exceeded").data
        = false ∧
    containsSub ("foo.example.com").data
      ("error waiting for api services to become available: context deadline exceeded").data
        = false := by
  decide

/-- C6: if an external cancellation fires during round `c` while the poller is
still polling (the set is non-empty through round `c + 1`) and the deadline
has not yet expired, the run terminates `cancelled` after exactly `c + 1`
rounds — within one in-flight round of the signal, not after the full
remaining timeout — and returns the wrapped `context canceled` error. -/
theorem cancellation_observed_within_one_round
    (probe : GroupVersion → Nat → Bool) (services : List GroupVersion)
    (c maxRounds : Nat) (hfuel : c + 2 ≤ maxRounds)
    (hbusy : ∀ n, n ≤ c + 1 → remainingAfter probe (gvSetOf services) n ≠ []) :
    (waitForAPIServicesOpenAPIV3 probe (some c) maxRounds services).1.result
      = .cancelled ∧
    (waitForAPIServicesOpenAPIV3 probe (some c) maxRounds services).1.roundsExecuted
      = c + 1 ∧
    (waitForAPIServicesOpenAPIV3 probe (some c) maxRounds services).1.roundsExecuted
      ≤ c + 1 ∧
    (waitForAPIServicesOpenAPIV3 probe (some c) maxRounds services).2 =
      some "error waiting for api services to become available: context canceled" := by
  have key := pollRounds_cancel probe (gvSetOf services) c maxRounds 0 []
    (by omega) (by omega) (fun n _ hn2 => hbusy n hn2)
  rw [show remainingAfter probe (gvSetOf services) 0 = gvSetOf services from rfl] at key
  obtain ⟨h1, h2, _⟩ := key
  have hrs : (pollRun probe (some c) maxRounds services).result = .cancelled := by
    rw [pollRun]; exact h1
  have hre : (pollRun probe (some c) maxRounds services).roundsExecuted = c + 1 := by
    rw [pollRun]; exact h2
  refine ⟨?_, ?_, ?_, ?_⟩
  · simpa [waitForAPIServicesOpenAPIV3] using hrs
  · simpa [waitForAPIServicesOpenAPIV3] using hre
  · simp [waitForAPIServicesOpenAPIV3, hre]
  · simp only [waitForAPIServicesOpenAPIV3, waitForAPIServicesErr, pollBaseErr]
    simp [hrs]

/-- Witness for C6: cancellation during round 0, a five-round deadline, and a
never-ready group-version: the run is cancelled after one round. -/
theorem cancellation_observed_within_one_round_witness :
    0 + 2 ≤ 5 ∧
    (∀ n, n ≤ 0 + 1 →
      remainingAfter (fun _ _ => false) (gvSetOf [⟨"g", "v"⟩]) n ≠ []) ∧
    (waitForAPIServicesOpenAPIV3 (fun _ _ => false) (some 0) 5 [⟨"g", "v"⟩]).1.result
      = .cancelled :=
  ⟨by decide, by decide,
   (cancellation_observed_within_one_round (fun _ _ => false) [⟨"g", "v"⟩] 0 5
     (by decide) (by decide)).1⟩

/-! ## The orchestrator `extractOpenAPI` and `main`

`extractOpenAPI` is a straight line of fallible phases.  Two teardown calls
are registered with `defer` — `StopWithExtensions` right after
`StartWithExtensions` succeeds, `apiSrv.Stop()` right after `apiSrv.Start()`
succeeds — so on return they run in reverse registration order; each deferred
function logs its own error and discards it.  The outcome of every external
phase is an oracle field of `OrchEnv` (`none` = success). -/

/-- Outcomes of the external calls made by one `extractOpenAPI` run. -/
structure OrchEnv where
  startEnvErr : Option String
  clientErr : Option String
  apiSrvNewErr : Option String
  apiSrvStartErr : Option String
  waitReadyErr : Option String
  clientSetErr : Option String
  waitV3Err : Option String
  extractV2Err : Option String
  extractV3Err : Option String
  stopApiSrvErr : Option String
  stopEnvErr : Option String
deriving DecidableEq

/-- Calls the run makes, in order: the two starts and the two stops. -/
inductive OrchEvent where
  | startEnv
  | startApiSrv
  | stopApiSrv
  | stopEnv
deriving DecidableEq

/-- Observable outcome of one `extractOpenAPI` run plus `main`'s use of it:
the returned (primary) error, the teardown errors that were only logged, and
the ordered start/stop calls. -/
structure RunOutcome where
  primaryError : Option String
  teardownErrors : List String
  events : List OrchEvent
deriving DecidableEq

/-- The deferred stops executed on return: `apiSrv.Stop()` (registered last,
run first, only if `Start` succeeded) and then `StopWithExtensions`. -/
def teardownEvents (apiSrvDeferred : Bool) : List OrchEvent :=
  (if apiSrvDeferred then [OrchEvent.stopApiSrv] else []) ++ [OrchEvent.stopEnv]

/-- The errors the deferred stops log (`failed to stop api server`,
`failed to stop testenv`), in execution order. -/
def teardownErrorsOf (env : OrchEnv) (apiSrvDeferred : Bool) : List String :=
  (if apiSrvDeferred then
    (match env.stopApiSrvErr with
     | some e => ["failed to stop api server: " ++ e]
     | none => [])
    else []) ++
  (match env.stopEnvErr with
   | some e => ["failed to stop testenv: " ++ e]
   | none => [])

/-- Return from `extractOpenAPI` with `primary`, running the deferred stops. -/
def finishRun (env : OrchEnv) (primary : Option String) (evs : List OrchEvent)
    (apiSrvDeferred : Bool) : RunOutcome :=
  ⟨primary, teardownErrorsOf env apiSrvDeferred, evs ++ teardownEvents apiSrvDeferred⟩

/-- `extractOpenAPI`: start the control plane, create the client, set up and
start the aggregated server, wait for readiness (envtest helper, then the
OpenAPI v3 poller), extract v2 and v3; the first failure becomes the returned
error and later phases are skipped; the deferred stops always run once
registered. -/
def extractOpenAPI (env : OrchEnv) : RunOutcome :=
  match env.startEnvErr with
  | some e => ⟨some ("failed to start testenv: " ++ e), [], [.startEnv]⟩
  | none =>
    match env.clientErr with
    | some e => finishRun env (some ("failed to create Kubernetes client: " ++ e))
        [.startEnv] false
    | none =>
      match env.apiSrvNewErr with
      | some e => finishRun env (some ("failed to setup api server: " ++ e))
          [.startEnv] false
      | none =>
        match env.apiSrvStartErr with
        | some e => finishRun env (some ("failed to start api server: " ++ e))
            [.startEnv, .startApiSrv] false
        | none =>
          match env.waitReadyErr with
          | some e => finishRun env
              (some ("failed to wait for api server to become ready: " ++ e))
              [.startEnv, .startApiSrv] true
          | none =>
            match env.clientSetErr with
            | some e => finishRun env
                (some ("failed to create clientset from config: " ++ e))
                [.startEnv, .startApiSrv] true
            | none =>
              match env.waitV3Err with
              | some e => finishRun env
                  (some ("failed to wait for the api services to become available: " ++ e))
                  [.startEnv, .startApiSrv] true
              | none =>
                match env.extractV2Err with
                | some e => finishRun env
                    (some ("failed to extract OpenAPI v2 spec: " ++ e))
                    [.startEnv, .startApiSrv] true
                | none =>
                  match env.extractV3Err with
                  | some e => finishRun env
                      (some ("failed to extract OpenAPI v3 spec: " ++ e))
                      [.startEnv, .startApiSrv] true
                  | none => finishRun env none [.startEnv, .startApiSrv] true

/-- `main`: exit code 1 iff `extractOpenAPI` returned an error. -/
def mainExitCode (env : OrchEnv) : Nat :=
  match (extractOpenAPI env).primaryError with
  | some _ => 1
  | none => 0

/-- The run reached the `apiSrv.Start()` call: everything before it
succeeded. -/
def startAttempted (env : OrchEnv) : Prop :=
  env.startEnvErr = none ∧ env.clientErr = none ∧ env.apiSrvNewErr = none

/-- `env` with teardown outcomes forced to success (used to state that the
primary error never depends on teardown failures). -/
def clearStops (env : OrchEnv) : OrchEnv :=
  { env with stopApiSrvErr := none, stopEnvErr := none }

/-! ## Claims about the orchestrator -/

/-- C2 (amended): once the aggregated server's `Start` is attempted, if it
succeeds the run's calls are exactly start control plane, start aggregated
server, stop aggregated server, stop control plane — teardown in strict
reverse start order, whatever the later phases did; if `Start` fails, only the
control plane is stopped (the aggregated server's stop is never invoked).  In
every case the returned primary error is unaffected by teardown outcomes, and
`main` exits 0 exactly when the run's primary error is absent. -/
theorem teardown_reverse_order_and_error_isolation (env : OrchEnv)
    (hatt : startAttempted env) :
    (env.apiSrvStartErr = none →
      (extractOpenAPI env).events =
        [.startEnv, .startApiSrv, .stopApiSrv, .stopEnv]) ∧
    (∀ e, env.apiSrvStartErr = some e →
      (extractOpenAPI env).events = [.startEnv, .startApiSrv, .stopEnv] ∧
      OrchEvent.stopApiSrv ∉ (extractOpenAPI env).events) ∧
    (extractOpenAPI env).primaryError = (extractOpenAPI (clearStops env)).primaryError ∧
    (mainExitCode env = 0 ↔ (extractOpenAPI env).primaryError = none) := by
  obtain ⟨h1, h2, h3⟩ := hatt
  rcases env with ⟨se, ce, ae, ase, wr, cs, w3, v2, v3, sa, sv⟩
  simp only at h1 h2 h3
  subst h1; subst h2; subst h3
  cases ase <;> cases wr <;> cases cs <;> cases w3 <;> cases v2 <;> cases v3 <;>
    simp [extractOpenAPI, finishRun, teardownEvents, teardownErrorsOf, clearStops,
      mainExitCode]

/-- Witness for C2 (amended): a run whose extraction phase and both stops
fail: teardown still runs in reverse order, and the primary error is the
extraction error. -/
theorem teardown_reverse_order_and_error_isolation_witness :
    startAttempted ⟨none, none, none, none, none, none, none, some "boom", none,
        some "stopA", some "stopB"⟩ ∧
    (extractOpenAPI ⟨none, none, none, none, none, none, none, some "boom", none,
        some "stopA", some "stopB"⟩).events =
      [.startEnv, .startApiSrv, .stopApiSrv, .stopEnv] :=
  ⟨⟨rfl, rfl, rfl⟩,
   (teardown_reverse_order_and_error_isolation
     ⟨none, none, none, none, none, none, none, some "boom", none,
      some "stopA", some "stopB"⟩ ⟨rfl, rfl, rfl⟩).1 rfl⟩

/-- C2 counterexample: a run in which the aggregated server's `Start` was
attempted but failed.  The code registers `defer apiSrv.Stop()` only after a
successful `Start`, so the aggregated server is never stopped in this run —
teardown is not the claimed "stop aggregated server, then stop control plane"
sequence for every run that attempted `Start`.  (The error-isolation half of
the claim does hold; only the control plane is stopped here.) -/
theorem failed_start_skips_apiserver_stop :
    startAttempted ⟨none, none, none, some "bad binary", none, none, none, none,
        none, none, none⟩ ∧
    (extractOpenAPI ⟨none, none, none, some "bad binary", none, none, none, none,
        none, none, none⟩).events = [.startEnv, .startApiSrv, .stopEnv] ∧
    OrchEvent.stopApiSrv ∉
      (extractOpenAPI ⟨none, none, none, some "bad binary", none, none, none, none,
        none, none, none⟩).events ∧
    OrchEvent.stopEnv ∈
      (extractOpenAPI ⟨none, none, none, some "bad binary", none, none, none, none,
        none, none, none⟩).events := by
  refine ⟨⟨rfl, rfl, rfl⟩, ?_, ?_, ?_⟩ <;> decide

/-! ## `path/filepath`: `Base`, `Clean`, `Join`

`writeJSONFile` computes its destination as
`filepath.Join(dir, filepath.Base(name))`.  `Base` strips trailing slashes and
keeps the last path element; `Join` concatenates with `/` and runs `Clean`,
which lexically removes empty and `.` elements and resolves `..` against the
preceding element.  These are modelled on character lists, at path-component
granularity, following the Go standard library's documented semantics. -/

/-- Split a path into its `/`-separated components, dropping empty ones.
`acc` holds the (reversed) characters of the component being read. -/
def splitCompsAux : List Char → List Char → List (List Char)
  | acc, [] => if acc.isEmpty then [] else [acc.reverse]
  | acc, c :: r =>
    if c = '/' then
      if acc.isEmpty then splitCompsAux [] r else acc.reverse :: splitCompsAux [] r
    else splitCompsAux (c :: acc) r

/-- The components of a path. -/
def pathComps (p : List Char) : List (List Char) :=
  splitCompsAux [] p

/-- A well-formed component: non-empty and slash-free. -/
def compOk (e : List Char) : Bool :=
  !e.isEmpty && e.all (fun c => c != '/')

/-- An ordinary component: well-formed and neither `.` nor `..`. -/
def normalComp (e : List Char) : Bool :=
  compOk e && e != ['.'] && e != ['.', '.']

/-- One step of `Clean`: skip `.`, resolve `..` (pop the previous element if
poppable, else drop it when rooted, else keep it), push anything else. -/
def cleanStep (rooted : Bool) (acc : List (List Char)) (el : List Char) :
    List (List Char) :=
  if el = ['.'] then acc
  else if el = ['.', '.'] then
    if !acc.isEmpty && acc.getLast? != some ['.', '.'] then acc.dropLast
    else if rooted then acc
    else acc ++ [['.', '.']]
  else acc ++ [el]

/-- `Clean`'s element processing over a whole component list. -/
def cleanCompsL (rooted : Bool) (els : List (List Char)) : List (List Char) :=
  els.foldl (cleanStep rooted) []

/-- Join components back with `/`. -/
def joinComps (cs : List (List Char)) : List Char :=
  (cs.intersperse ['/']).flatten

/-- Whether a path is rooted (starts with `/`). -/
def rootedL : List Char → Bool
  | c :: _ => decide (c = '/')
  | [] => false

/-- `filepath.Clean` on characters: empty becomes `.`, otherwise the cleaned
components are re-joined, keeping the leading slash for rooted paths and
yielding `.` when nothing remains of a relative path. -/
def cleanL (p : List Char) : List Char :=
  if p.isEmpty then ['.']
  else
    let body := joinComps (cleanCompsL (rootedL p) (pathComps p))
    if rootedL p then '/' :: body
    else if body.isEmpty then ['.'] else body

/-- `filepath.Clean`. -/
def clean (s : String) : String :=
  ⟨cleanL s.data⟩

/-- `filepath.Base` on characters: empty is `.`, all-slashes is `/`, otherwise
the last element after stripping trailing slashes. -/
def baseL (p : List Char) : List Char :=
  if p.isEmpty then ['.']
  else
    let stripped := (p.reverse.dropWhile (fun c => c = '/')).reverse
    if stripped.isEmpty then ['/']
    else (stripped.reverse.takeWhile (fun c => c != '/')).reverse

/-- `filepath.Base`. -/
def goBase (s : String) : String :=
  ⟨baseL s.data⟩

/-- `filepath.Join` of two elements: empty elements are skipped, the rest is
joined with `/` and cleaned. -/
def goJoin (a b : String) : String :=
  if a = "" ∧ b = "" then ""
  else if a = "" then clean b
  else clean ⟨a.data ++ '/' :: b.data⟩

/-- The destination path `writeJSONFile` writes to:
`filepath.Join(dir, filepath.Base(name))`. -/
def writeFilePath (dir name : String) : String :=
  goJoin dir (goBase name)

/-- Formalisation of "the file lands directly inside the given directory":
the written path consists of the cleaned components of `dir` plus exactly one
ordinary trailing component, with the same rootedness as `dir`. -/
def directlyInside (dir path : String) : Bool :=
  match (pathComps path.data).getLast? with
  | none => false
  | some lastEl =>
    normalComp lastEl &&
    decide ((pathComps path.data).dropLast =
      cleanCompsL (rootedL dir.data) (pathComps dir.data)) &&
    (rootedL path.data == rootedL dir.data)

/-! ## Path lemmas -/

/-- `(a ++ b).data = a.data ++ b.data`. -/
theorem strData_append (a b : String) : (a ++ b).data = a.data ++ b.data := by
  cases a; cases b; rfl

/-- A non-empty string has non-empty character data. -/
theorem strData_ne_nil {s : String} (h : s ≠ "") : s.data ≠ [] := by
  intro hd
  apply h
  cases s
  simp only at hd
  subst hd
  rfl

/-- Unfolding: splitting the empty path. -/
theorem splitCompsAux_nil (acc : List Char) :
    splitCompsAux acc [] = if acc.isEmpty then [] else [acc.reverse] := rfl

/-- Unfolding: a slash closes the current component. -/
theorem splitCompsAux_slash (acc r : List Char) :
    splitCompsAux acc ('/' :: r) =
      if acc.isEmpty then splitCompsAux [] r
      else acc.reverse :: splitCompsAux [] r := rfl

/-- Unfolding: a non-slash character extends the current component. -/
theorem splitCompsAux_char (acc : List Char) {c : Char} (hc : ¬ c = '/')
    (r : List Char) :
    splitCompsAux acc (c :: r) = splitCompsAux (c :: acc) r := by
  show (if c = '/' then
      if acc.isEmpty then splitCompsAux [] r else acc.reverse :: splitCompsAux [] r
    else splitCompsAux (c :: acc) r) = splitCompsAux (c :: acc) r
  rw [if_neg hc]

/-- Splitting a slash-free run yields the single accumulated component. -/
theorem splitCompsAux_run (n : List Char) :
    ∀ acc, n.all (fun c => c != '/') = true → (acc ≠ [] ∨ n ≠ []) →
      splitCompsAux acc n = [acc.reverse ++ n] := by
  induction n with
  | nil =>
    intro acc _ hor
    have hacc : acc ≠ [] := by
      rcases hor with h | h
      · exact h
      · exact absurd rfl h
    rw [splitCompsAux_nil, if_neg (by simpa [List.isEmpty_iff] using hacc)]
    simp
  | cons c r ih =>
    intro acc hall hor
    simp only [List.all_cons, Bool.and_eq_true] at hall
    have hc : ¬ (c = '/') := by simpa using hall.1
    rw [splitCompsAux_char acc hc r, ih (c :: acc) hall.2 (Or.inl (by simp))]
    simp

/-- Consuming a slash-free prefix just extends the accumulator. -/
theorem splitCompsAux_consume (xs : List Char) :
    ∀ (acc r : List Char), xs.all (fun c => c != '/') = true →
      splitCompsAux acc (xs ++ r) = splitCompsAux (xs.reverse ++ acc) r := by
  induction xs with
  | nil => intro acc r _; simp
  | cons c t ih =>
    intro acc r hall
    simp only [List.all_cons, Bool.and_eq_true] at hall
    have hc : ¬ (c = '/') := by simpa using hall.1
    rw [List.cons_append, splitCompsAux_char acc hc (t ++ r), ih (c :: acc) r hall.2]
    simp

/-- Appending `/<component>` appends one component to the split. -/
theorem splitCompsAux_append_comp (xs : List Char) :
    ∀ (acc n : List Char), compOk n = true →
      splitCompsAux acc (xs ++ '/' :: n) = splitCompsAux acc xs ++ [n] := by
  induction xs with
  | nil =>
    intro acc n hok
    simp only [compOk, Bool.and_eq_true, List.isEmpty_iff] at hok
    have hne : n ≠ [] := by simpa using hok.1
    have hrun : splitCompsAux [] n = [n] := by
      rw [splitCompsAux_run n [] hok.2 (Or.inr hne)]; simp
    rw [List.nil_append, splitCompsAux_slash, splitCompsAux_nil]
    by_cases hacc : acc.isEmpty
    · rw [if_pos hacc, if_pos hacc, hrun]; simp
    · rw [if_neg hacc, if_neg hacc, hrun]; simp
  | cons c t ih =>
    intro acc n hok
    by_cases hc : c = '/'
    · subst hc
      rw [List.cons_append, splitCompsAux_slash, splitCompsAux_slash]
      by_cases hacc : acc.isEmpty
      · rw [if_pos hacc, if_pos hacc, ih [] n hok]
      · rw [if_neg hacc, if_neg hacc, ih [] n hok]
        simp
    · rw [List.cons_append, splitCompsAux_char acc hc (t ++ '/' :: n),
        splitCompsAux_char acc hc t]
      exact ih (c :: acc) n hok

/-- Every component produced by splitting is non-empty and slash-free. -/
theorem splitCompsAux_ok (p : List Char) :
    ∀ acc, acc.all (fun c => c != '/') = true →
      ∀ e ∈ splitCompsAux acc p, compOk e = true := by
  induction p with
  | nil =>
    intro acc hacc e he
    rw [splitCompsAux_nil] at he
    by_cases h : acc.isEmpty
    · rw [if_pos h] at he; simp at he
    · rw [if_neg h] at he
      simp only [List.mem_singleton] at he
      subst he
      simp only [compOk, Bool.and_eq_true, List.isEmpty_iff]
      exact ⟨by simpa [List.isEmpty_iff, List.reverse_eq_nil_iff] using h,
        by simpa using hacc⟩
  | cons c r ih =>
    intro acc hacc e he
    by_cases hc : c = '/'
    · subst hc
      rw [splitCompsAux_slash] at he
      by_cases h : acc.isEmpty
      · rw [if_pos h] at he
        exact ih [] (by simp) e he
      · rw [if_neg h] at he
        rcases List.mem_cons.mp he with h1 | h1
        · subst h1
          simp only [compOk, Bool.and_eq_true, List.isEmpty_iff]
          exact ⟨by simpa [List.isEmpty_iff, List.reverse_eq_nil_iff] using h,
            by simpa using hacc⟩
        · exact ih [] (by simp) e h1
    · rw [splitCompsAux_char acc hc r] at he
      refine ih (c :: acc) ?_ e he
      simp only [List.all_cons, Bool.and_eq_true]
      exact ⟨by simpa using hc, hacc⟩

/-- `Clean` pushes an ordinary component unchanged. -/
theorem cleanStep_normal (rooted : Bool) (acc : List (List Char))
    {n : List Char} (hn : normalComp n = true) :
    cleanStep rooted acc n = acc ++ [n] := by
  simp only [normalComp, Bool.and_eq_true, bne_iff_ne] at hn
  simp [cleanStep, hn.1.2, hn.2]

/-- `Clean` over a list ending in an ordinary component. -/
theorem cleanCompsL_append_normal (rooted : Bool) (els : List (List Char))
    {n : List Char} (hn : normalComp n = true) :
    cleanCompsL rooted (els ++ [n]) = cleanCompsL rooted els ++ [n] := by
  simp only [cleanCompsL, List.foldl_append, List.foldl_cons, List.foldl_nil]
  exact cleanStep_normal rooted _ hn

/-- Membership after one `Clean` step. -/
theorem cleanStep_mem {rooted : Bool} {acc : List (List Char)}
    {el x : List Char} (hx : x ∈ cleanStep rooted acc el) :
    x ∈ acc ∨ x = el ∨ x = ['.', '.'] := by
  unfold cleanStep at hx
  by_cases h1 : el = ['.']
  · rw [if_pos h1] at hx; exact Or.inl hx
  · rw [if_neg h1] at hx
    by_cases h2 : el = ['.', '.']
    · rw [if_pos h2] at hx
      by_cases h3 : (!acc.isEmpty && acc.getLast? != some ['.', '.']) = true
      · rw [if_pos h3] at hx
        exact Or.inl ((List.dropLast_sublist acc).subset hx)
      · rw [if_neg h3] at hx
        by_cases h4 : rooted
        · rw [if_pos h4] at hx; exact Or.inl hx
        · rw [if_neg h4] at hx
          rcases List.mem_append.mp hx with h5 | h5
          · exact Or.inl h5
          · simp only [List.mem_singleton] at h5
            exact Or.inr (Or.inr h5)
    · rw [if_neg h2] at hx
      rcases List.mem_append.mp hx with h5 | h5
      · exact Or.inl h5
      · simp only [List.mem_singleton] at h5
        exact Or.inr (Or.inl (h5.trans rfl ▸ h5))

/-- Components surviving `Clean` are non-empty and slash-free. -/
theorem cleanCompsL_ok_aux (rooted : Bool) (els : List (List Char)) :
    ∀ acc, (∀ e ∈ els, compOk e = true) → (∀ e ∈ acc, compOk e = true) →
      ∀ e ∈ els.foldl (cleanStep rooted) acc, compOk e = true := by
  induction els with
  | nil => intro acc _ hacc e he; exact hacc e he
  | cons hd t ih =>
    intro acc hels hacc e he
    simp only [List.foldl_cons] at he
    refine ih (cleanStep rooted acc hd) (fun x hx => hels x (by simp [hx])) ?_ e he
    intro x hx
    rcases cleanStep_mem hx with h | h | h
    · exact hacc x h
    · subst h; exact hels x (by simp)
    · subst h; decide

/-- Components of `cleanCompsL` are well formed when the inputs are. -/
theorem cleanCompsL_ok (rooted : Bool) (els : List (List Char))
    (hels : ∀ e ∈ els, compOk e = true) :
    ∀ e ∈ cleanCompsL rooted els, compOk e = true :=
  cleanCompsL_ok_aux rooted els [] hels (by simp)

/-- Joining well-formed components and re-splitting gives them back. -/
theorem pathComps_joinComps (cs : List (List Char)) :
    (∀ e ∈ cs, compOk e = true) → pathComps (joinComps cs) = cs := by
  induction cs with
  | nil => intro _; rfl
  | cons c t ih =>
    intro hok
    have hc : compOk c = true := hok c (by simp)
    simp only [compOk, Bool.and_eq_true, List.isEmpty_iff] at hc
    have hcne : c ≠ [] := by simpa using hc.1
    cases t with
    | nil =>
      simp only [joinComps, List.intersperse_singleton, List.flatten,
        List.append_nil, pathComps]
      rw [splitCompsAux_run c [] hc.2 (Or.inr hcne)]
      simp
    | cons c2 t2 =>
      have hjoin : joinComps (c :: c2 :: t2) = c ++ '/' :: joinComps (c2 :: t2) := by
        simp [joinComps, List.intersperse_cons_cons]
      rw [hjoin]
      simp only [pathComps]
      rw [splitCompsAux_consume c [] _ hc.2, List.append_nil, splitCompsAux_slash]
      have hrevne : ¬ (c.reverse.isEmpty = true) := by
        simpa [List.isEmpty_iff, List.reverse_eq_nil_iff] using hcne
      rw [if_neg hrevne]
      have hrest := ih (fun e he => hok e (by simp [he]))
      simp only [pathComps] at hrest
      rw [hrest]
      simp

/-- A non-empty list of well-formed components joins to a non-empty path. -/
theorem joinComps_ne_nil {cs : List (List Char)} (hne : cs ≠ [])
    (hok : ∀ e ∈ cs, compOk e = true) : joinComps cs ≠ [] := by
  cases cs with
  | nil => exact absurd rfl hne
  | cons c t =>
    have hc := hok c (by simp)
    simp only [compOk, Bool.and_eq_true, List.isEmpty_iff] at hc
    have hcne : c ≠ [] := by simpa using hc.1
    cases t with
    | nil =>
      simp only [joinComps, List.intersperse_singleton, List.flatten, List.append_nil]
      exact hcne
    | cons c2 t2 =>
      simp only [joinComps, List.intersperse_cons_cons, List.flatten_cons]
      intro h
      rcases List.append_eq_nil.mp h with ⟨_, h2⟩
      simp at h2

/-- A join of well-formed components never starts with a slash. -/
theorem joinComps_not_rooted {cs : List (List Char)}
    (hok : ∀ e ∈ cs, compOk e = true) : rootedL (joinComps cs) = false := by
  cases cs with
  | nil => rfl
  | cons c t =>
    have hc := hok c (by simp)
    simp only [compOk, Bool.and_eq_true, List.isEmpty_iff] at hc
    have hcne : c ≠ [] := by simpa using hc.1
    have hhead : ∀ (x : Char) (xs : List Char), c = x :: xs → ¬ (x = '/') := by
      intro x xs hcl h
      have := List.all_eq_true.mp hc.2 x (by rw [hcl]; simp)
      simp [h] at this
    cases hcl : c with
    | nil => exact absurd hcl hcne
    | cons x xs =>
      have hx : ¬ (x = '/') := hhead x xs hcl
      cases t with
      | nil =>
        simp only [joinComps, List.intersperse_singleton, List.flatten,
          List.append_nil]
        simp [rootedL, hx]
      | cons c2 t2 =>
        simp only [joinComps, List.intersperse_cons_cons, List.flatten_cons, hcl,
          List.cons_append]
        simp [rootedL, hx]

/-- `Clean(d ++ "/" ++ n)` for a non-empty `d` and ordinary component `n`:
its components are the cleaned components of `d` plus `n`, and rootedness is
that of `d`. -/
theorem cleanL_append_comp (d n : List Char) (hd : d ≠ [])
    (hn : normalComp n = true) :
    pathComps (cleanL (d ++ '/' :: n)) =
      cleanCompsL (rootedL d) (pathComps d) ++ [n] ∧
    rootedL (cleanL (d ++ '/' :: n)) = rootedL d := by
  have hok_n : compOk n = true := by
    simp only [normalComp, Bool.and_eq_true] at hn
    exact hn.1.1
  have hpne : d ++ '/' :: n ≠ [] := by
    cases d with
    | nil => exact absurd rfl hd
    | cons c t => simp
  have hrooted : rootedL (d ++ '/' :: n) = rootedL d := by
    cases d with
    | nil => exact absurd rfl hd
    | cons c t => rfl
  have hsplit : pathComps (d ++ '/' :: n) = pathComps d ++ [n] :=
    splitCompsAux_append_comp d [] n hok_n
  have hccok : ∀ e ∈ cleanCompsL (rootedL d) (pathComps d) ++ [n], compOk e = true := by
    intro e he
    rcases List.mem_append.mp he with h | h
    · exact cleanCompsL_ok _ _ (splitCompsAux_ok d [] (by simp)) e h
    · simp only [List.mem_singleton] at h
      subst h; exact hok_n
  have hbody_ne : joinComps (cleanCompsL (rootedL d) (pathComps d) ++ [n]) ≠ [] :=
    joinComps_ne_nil (by simp) hccok
  have hbody_comps :
      pathComps (joinComps (cleanCompsL (rootedL d) (pathComps d) ++ [n])) =
        cleanCompsL (rootedL d) (pathComps d) ++ [n] :=
    pathComps_joinComps _ hccok
  have hbody_unrooted :
      rootedL (joinComps (cleanCompsL (rootedL d) (pathComps d) ++ [n])) = false :=
    joinComps_not_rooted hccok
  have hclean : cleanCompsL (rootedL (d ++ '/' :: n)) (pathComps (d ++ '/' :: n)) =
      cleanCompsL (rootedL d) (pathComps d) ++ [n] := by
    rw [hsplit, hrooted]
    exact cleanCompsL_append_normal _ _ hn
  unfold cleanL
  rw [if_neg (by simp only [List.isEmpty_iff]; exact hpne)]
  simp only [hrooted, hsplit, cleanCompsL_append_normal (rootedL d) (pathComps d) hn]
  by_cases hroot : rootedL d = true
  · rw [if_pos hroot]
    constructor
    · simp only [pathComps, splitCompsAux_slash]
      rw [if_pos (by simp)]
      exact hbody_comps
    · rw [hroot]; rfl
  · rw [if_neg hroot]
    rw [if_neg (by simpa [List.isEmpty_iff] using hbody_ne)]
    constructor
    · exact hbody_comps
    · rw [hbody_unrooted, Bool.eq_false_iff.mpr hroot]

/-- `takeWhile` keeps a list all of whose elements satisfy the predicate. -/
theorem takeWhile_of_all {q : Char → Bool} :
    ∀ l : List Char, l.all q = true → l.takeWhile q = l := by
  intro l hall
  induction l with
  | nil => rfl
  | cons c t ih =>
    simp only [List.all_cons, Bool.and_eq_true] at hall
    simp [List.takeWhile_cons, hall.1, ih hall.2]

/-- `dropWhile` either empties the list or stops at a failing element. -/
theorem dropWhile_head_false {q : Char → Bool} :
    ∀ l : List Char, l.dropWhile q = [] ∨
      ∃ c r, l.dropWhile q = c :: r ∧ q c = false := by
  intro l
  induction l with
  | nil => exact Or.inl rfl
  | cons c t ih =>
    by_cases h : q c
    · simpa [List.dropWhile_cons, h] using ih
    · exact Or.inr ⟨c, t, by simp [List.dropWhile_cons, h], by simpa using h⟩

/-- `Base` is the identity on non-empty slash-free names. -/
theorem baseL_fixed {e : List Char} (hne : e ≠ [])
    (hall : e.all (fun c => c != '/') = true) : baseL e = e := by
  have hrevall : e.reverse.all (fun c => c != '/') = true := by
    simpa [List.all_reverse] using hall
  have hdrop : e.reverse.dropWhile (fun c => c = '/') = e.reverse := by
    cases hrev : e.reverse with
    | nil => rfl
    | cons c t =>
      have hc : (c != '/') = true := by
        have := List.all_eq_true.mp hrevall c (by rw [hrev]; simp)
        exact this
      simp only [List.dropWhile_cons]
      rw [if_neg (by simpa using hc)]
  unfold baseL
  rw [if_neg (by simpa [List.isEmpty_iff] using hne)]
  simp only [hdrop, List.reverse_reverse]
  rw [if_neg (by simpa [List.isEmpty_iff] using hne)]
  rw [takeWhile_of_all e.reverse hrevall, List.reverse_reverse]

/-- `Base` yields `.`, `/`, or a non-empty slash-free component. -/
theorem baseL_cases (p : List Char) :
    baseL p = ['.'] ∨ baseL p = ['/'] ∨
      (baseL p ≠ [] ∧ (baseL p).all (fun c => c != '/') = true) := by
  by_cases hp : p.isEmpty
  · left; unfold baseL; rw [if_pos hp]
  · unfold baseL
    rw [if_neg hp]
    by_cases hs : ((p.reverse.dropWhile (fun c => c = '/')).reverse).isEmpty
    · right; left; rw [if_pos hs]
    · right; right
      rw [if_neg hs]
      constructor
      · rcases dropWhile_head_false (q := fun c => c = '/') p.reverse with h | ⟨c, r, h, hc⟩
        · exfalso
          apply hs
          simp [h]
        · simp only [List.reverse_reverse, h]
          rw [List.takeWhile_cons, if_pos (by simpa using hc)]
          simp
      · rw [List.all_reverse]
        apply List.all_eq_true.mpr
        intro x hx
        have := List.mem_takeWhile_imp (p := fun c => c != '/') hx
        simpa using this

/-- `Base` is idempotent. -/
theorem baseL_idem (p : List Char) : baseL (baseL p) = baseL p := by
  rcases baseL_cases p with h | h | ⟨h1, h2⟩
  · rw [h]; decide
  · rw [h]; decide
  · exact baseL_fixed h1 h2

/-- `filepath.Base` is idempotent. -/
theorem goBase_idem (s : String) : goBase (goBase s) = goBase s :=
  String.ext (baseL_idem s.data)

/-- The components of the destination path `writeJSONFile` uses, for a
non-empty directory and a filename whose base is an ordinary component. -/
theorem writeFilePath_comps (dir name : String) (hdir : dir ≠ "")
    (hb : normalComp (goBase name).data = true) :
    pathComps (writeFilePath dir name).data =
      cleanCompsL (rootedL dir.data) (pathComps dir.data) ++ [(goBase name).data] ∧
    rootedL (writeFilePath dir name).data = rootedL dir.data := by
  have hjoin : writeFilePath dir name =
      clean ⟨dir.data ++ '/' :: (goBase name).data⟩ := by
    unfold writeFilePath goJoin
    rw [if_neg (by intro h; exact hdir h.1), if_neg hdir]
  rw [hjoin]
  exact cleanL_append_comp dir.data (goBase name).data (strData_ne_nil hdir) hb

/-! ## Claims about the persistence path -/

/-- C9 counterexample: `writeJSONFile` keeps only `filepath.Base(name)`, but
`Base` can itself be `..`: with directory `out` and filename `foo/..` the
write targets `filepath.Join("out", "..") = "."` — outside the destination
directory (and likewise for the bare name `..`). -/
theorem write_can_escape_output_dir :
    writeFilePath "out" "foo/.." = "." ∧
    directlyInside "out" (writeFilePath "out" "foo/..") = false ∧
    writeFilePath "out" ".." = "." ∧
    directlyInside "out" (writeFilePath "out" "..") = false := by
  decide

/-- C9 (amended): the persistence write uses only the base component of the
supplied filename (`writeFilePath dir name = writeFilePath dir (Base name)`),
and whenever that base is an ordinary component — not `.`, `..` or `/` — the
file lands directly inside the cleaned destination directory.  A filename
whose last component is `..` (or `.`) escapes this guarantee. -/
theorem write_lands_in_output_dir (dir name : String) (hdir : dir ≠ "")
    (hb : normalComp (goBase name).data = true) :
    writeFilePath dir name = writeFilePath dir (goBase name) ∧
    directlyInside dir (writeFilePath dir name) = true := by
  constructor
  · unfold writeFilePath
    rw [goBase_idem]
  · obtain ⟨h1, h2⟩ := writeFilePath_comps dir name hdir hb
    simp only [directlyInside, h1, List.getLast?_concat, List.dropLast_concat, h2]
    simp [hb]

/-- Witness for C9 (amended): directory `out`, filename `a/b.json` — the
write targets `out/b.json`, directly inside `out`. -/
theorem write_lands_in_output_dir_witness :
    ("out" : String) ≠ "" ∧
    normalComp (goBase "a/b.json").data = true ∧
    directlyInside "out" (writeFilePath "out" "a/b.json") = true :=
  ⟨by decide, by decide,
   (write_lands_in_output_dir "out" "a/b.json" (by decide) (by decide)).2⟩

/-! ## `encoding/json`: scanning, `Indent`, `Compact`

`writeJSONFile` runs `json.Indent(&out, jsonData, "", "\t")` and persists
`out`.  `Indent` and `Compact` copy the input's JSON tokens verbatim and only
change the whitespace between tokens; both reject input the JSON scanner does
not accept.  The model lexes a byte (character) stream into tokens — structural
characters and literal lexemes (strings in their source form, or runs of
non-delimiter characters such as numbers, `true`, `false`, `null`) — validates
the token stream with a pushdown scanner, and re-renders it either compactly
or with `Indent`'s exact newline-and-tab layout. -/

/-- JSON whitespace (`space`, `tab`, `newline`, `carriage return`). -/
def isWSChar (c : Char) : Bool :=
  c = ' ' || c = '\t' || c = '\n' || c = '\r'

/-- Structural characters. -/
def isDelimChar (c : Char) : Bool :=
  c = '{' || c = '}' || c = '[' || c = ']' || c = ',' || c = ':'

/-- A character that continues a non-string literal lexeme. -/
def isRunChar (c : Char) : Bool :=
  !isWSChar c && !isDelimChar c && c != '"'

/-- A JSON token: structural character or literal lexeme (`lit` keeps the
exact source characters, including the quotes of a string). -/
inductive JTok where
  | lbrace
  | rbrace
  | lbrack
  | rbrack
  | comma
  | colon
  | lit (cs : List Char)
deriving DecidableEq

/-- Lex the remainder of a string literal (after the opening quote).  The
flag records that the previous character was an unconsumed backslash.
Returns the consumed characters (through the closing quote) and the rest. -/
def lexStrF : Bool → List Char → Option (List Char × List Char)
  | _, [] => none
  | true, c :: r => (lexStrF false r).map (fun p => (c :: p.1, p.2))
  | false, c :: r =>
    if c = '"' then some ([c], r)
    else if c = '\\' then (lexStrF true r).map (fun p => (c :: p.1, p.2))
    else (lexStrF false r).map (fun p => (c :: p.1, p.2))

/-- Lex a string-literal body. -/
def lexStr (l : List Char) : Option (List Char × List Char) :=
  lexStrF false l

/-- Lex a maximal run of literal characters. -/
def lexRun : List Char → List Char × List Char
  | [] => ([], [])
  | c :: r =>
    if isRunChar c then ((lexRun r).1.cons c, (lexRun r).2)
    else ([], c :: r)

/-- The tokeniser, with fuel (each step consumes at least one character, so
`length + 1` fuel always suffices). -/
def lexToksF : Nat → List Char → Option (List JTok)
  | 0, _ => none
  | _ + 1, [] => some []
  | fuel + 1, c :: r =>
    if isWSChar c then lexToksF fuel r
    else if c = '{' then (lexToksF fuel r).map (fun ts => .lbrace :: ts)
    else if c = '}' then (lexToksF fuel r).map (fun ts => .rbrace :: ts)
    else if c = '[' then (lexToksF fuel r).map (fun ts => .lbrack :: ts)
    else if c = ']' then (lexToksF fuel r).map (fun ts => .rbrack :: ts)
    else if c = ',' then (lexToksF fuel r).map (fun ts => .comma :: ts)
    else if c = ':' then (lexToksF fuel r).map (fun ts => .colon :: ts)
    else if c = '"' then
      match lexStr r with
      | none => none
      | some sr => (lexToksF fuel sr.2).map (fun ts => .lit ('"' :: sr.1) :: ts)
    else
      (lexToksF fuel (lexRun (c :: r)).2).map
        (fun ts => .lit (lexRun (c :: r)).1 :: ts)

/-- Tokenise a character stream. -/
def lexToks (p : List Char) : Option (List JTok) :=
  lexToksF (p.length + 1) p

/-- The source characters of one token. -/
def renderTok : JTok → List Char
  | .lbrace => ['{']
  | .rbrace => ['}']
  | .lbrack => ['[']
  | .rbrack => [']']
  | .comma => [',']
  | .colon => [':']
  | .lit cs => cs

/-- `json.Compact`: all tokens back to back with no whitespace. -/
def renderCompact (ts : List JTok) : List Char :=
  (ts.map renderTok).flatten

/-- Scanner context: inside an object or an array. -/
inductive ScanCtx where
  | obj
  | arr
deriving DecidableEq

/-- What the scanner expects next. -/
inductive ScanExpect where
  | value
  | valueOrClose
  | keyOrClose
  | key
  | colonExp
  | commaOrClose
  | done
deriving DecidableEq

/-- After a complete value: the top level is done, inside a container a comma
or the closing bracket follows. -/
def afterValue : List ScanCtx → ScanExpect
  | [] => .done
  | _ :: _ => .commaOrClose

/-- One scanner transition (mirrors `encoding/json`'s state machine at token
granularity): the expected-next-token class and the token drive the step, the
context stack is consulted only for closings and commas. -/
def scanStep (st : List ScanCtx × ScanExpect) (t : JTok) :
    Option (List ScanCtx × ScanExpect) :=
  match st.2, t with
  | .value, .lit _ => some (st.1, afterValue st.1)
  | .value, .lbrace => some (.obj :: st.1, .keyOrClose)
  | .value, .lbrack => some (.arr :: st.1, .valueOrClose)
  | .valueOrClose, .lit _ => some (st.1, afterValue st.1)
  | .valueOrClose, .lbrace => some (.obj :: st.1, .keyOrClose)
  | .valueOrClose, .lbrack => some (.arr :: st.1, .valueOrClose)
  | .valueOrClose, .rbrack =>
    match st.1 with
    | .arr :: s => some (s, afterValue s)
    | _ => none
  | .keyOrClose, .lit _ => some (st.1, .colonExp)
  | .keyOrClose, .rbrace =>
    match st.1 with
    | .obj :: s => some (s, afterValue s)
    | _ => none
  | .key, .lit _ => some (st.1, .colonExp)
  | .colonExp, .colon => some (st.1, .value)
  | .commaOrClose, .comma =>
    match st.1 with
    | .obj :: s => some (.obj :: s, .key)
    | .arr :: s => some (.arr :: s, .value)
    | [] => none
  | .commaOrClose, .rbrace =>
    match st.1 with
    | .obj :: s => some (s, afterValue s)
    | _ => none
  | .commaOrClose, .rbrack =>
    match st.1 with
    | .arr :: s => some (s, afterValue s)
    | _ => none
  | _, _ => none

/-- Run the scanner over a token stream. -/
def scanToks (ts : List JTok) : Option (List ScanCtx × ScanExpect) :=
  ts.foldlM scanStep ([], .value)

/-- A valid JSON token stream: the scanner consumes it and ends with a
complete top-level value. -/
def validToks (ts : List JTok) : Bool :=
  decide (scanToks ts = some ([], .done))

/-- Whether a token is a literal lexeme. -/
def isLitTok : JTok → Bool
  | .lit _ => true
  | _ => false

/-- No two adjacent literal lexemes (valid JSON never has them; two adjacent
bare runs would re-lex as one). -/
def noAdjLits : List JTok → Bool
  | t1 :: t2 :: r => !(isLitTok t1 && isLitTok t2) && noAdjLits (t2 :: r)
  | _ => true

/-- A well-formed literal lexeme: a complete string literal in source form,
or a non-empty run of literal characters. -/
def wfLit (cs : List Char) : Bool :=
  match cs with
  | [] => false
  | c :: body =>
    if c = '"' then
      match lexStr body with
      | some sr => decide (sr.1 = body) && sr.2.isEmpty
      | none => false
    else cs.all isRunChar

/-- Well-formedness of a token. -/
def wfTok : JTok → Bool
  | .lit cs => wfLit cs
  | _ => true

/-- A newline plus `depth` copies of the indent string (`"\t"`), as
`encoding/json`'s `newline` helper writes for prefix `""`. -/
def nlIndent (depth : Nat) : List Char :=
  '\n' :: List.replicate depth '\t'

/-- `json.Indent`'s emission loop over tokens, carrying the current depth and
the pending-indent flag set by an opening bracket (an immediately following
closing bracket suppresses the newline, keeping `{}` and `[]` tight). -/
def emit : Nat → Bool → List JTok → List Char
  | _, _, [] => []
  | depth, ni, .rbrace :: ts =>
    if ni then '}' :: emit depth false ts
    else nlIndent (depth - 1) ++ '}' :: emit (depth - 1) false ts
  | depth, ni, .rbrack :: ts =>
    if ni then ']' :: emit depth false ts
    else nlIndent (depth - 1) ++ ']' :: emit (depth - 1) false ts
  | depth, ni, .lbrace :: ts =>
    (if ni then nlIndent (depth + 1) else []) ++
      '{' :: emit (if ni then depth + 1 else depth) true ts
  | depth, ni, .lbrack :: ts =>
    (if ni then nlIndent (depth + 1) else []) ++
      '[' :: emit (if ni then depth + 1 else depth) true ts
  | depth, ni, .comma :: ts =>
    (if ni then nlIndent (depth + 1) else []) ++
      ',' :: (nlIndent (if ni then depth + 1 else depth) ++
        emit (if ni then depth + 1 else depth) false ts)
  | depth, ni, .colon :: ts =>
    (if ni then nlIndent (depth + 1) else []) ++
      ':' :: ' ' :: emit (if ni then depth + 1 else depth) false ts
  | depth, ni, .lit cs :: ts =>
    (if ni then nlIndent (depth + 1) else []) ++
      (cs ++ emit (if ni then depth + 1 else depth) false ts)

/-- `json.Indent` with prefix `""` and indent `"\t"` on a token stream. -/
def goIndentToks (ts : List JTok) : List Char :=
  emit 0 false ts

/-- `json.Indent` on bytes: lex, validate, re-render indented. -/
def goIndentBytes (data : List Char) : Except String (List Char) :=
  match lexToks data with
  | none => .error "invalid JSON input"
  | some ts =>
    if validToks ts then .ok (goIndentToks ts) else .error "invalid JSON input"

/-- `json.Compact` on bytes: lex, validate, re-render compactly. -/
def compactBytes (data : List Char) : Except String (List Char) :=
  match lexToks data with
  | none => .error "invalid JSON input"
  | some ts =>
    if validToks ts then .ok (renderCompact ts) else .error "invalid JSON input"

/-! ## Lexer lemmas -/

/-- Unfolding: string lexing after an escape consumes one character. -/
theorem lexStrF_true_cons (c : Char) (r : List Char) :
    lexStrF true (c :: r) = (lexStrF false r).map (fun p => (c :: p.1, p.2)) := rfl

/-- Unfolding: the closing quote. -/
theorem lexStrF_quote (r : List Char) :
    lexStrF false ('"' :: r) = some (['"'], r) := rfl

/-- Unfolding: a backslash starts an escape. -/
theorem lexStrF_backslash (r : List Char) :
    lexStrF false ('\\' :: r) =
      (lexStrF true r).map (fun p => ('\\' :: p.1, p.2)) := rfl

/-- Unfolding: an ordinary string character. -/
theorem lexStrF_char {c : Char} (hq : ¬ c = '"') (hb : ¬ c = '\\')
    (r : List Char) :
    lexStrF false (c :: r) = (lexStrF false r).map (fun p => (c :: p.1, p.2)) := by
  show (if c = '"' then some ([c], r)
    else if c = '\\' then (lexStrF true r).map (fun p => (c :: p.1, p.2))
    else (lexStrF false r).map (fun p => (c :: p.1, p.2))) = _
  rw [if_neg hq, if_neg hb]

/-- A string lexeme plus its rest reassemble to the input. -/
theorem lexStrF_append_rest :
    ∀ (l : List Char) (f : Bool) (s rest : List Char),
      lexStrF f l = some (s, rest) → s ++ rest = l := by
  intro l
  induction l with
  | nil => intro f s rest h; cases f <;> simp [lexStrF] at h
  | cons c r ih =>
    intro f s rest h
    cases f with
    | true =>
      rw [lexStrF_true_cons] at h
      cases hres : lexStrF false r with
      | none => rw [hres] at h; simp at h
      | some p =>
        rw [hres] at h
        simp only [Option.map_some', Option.some.injEq] at h
        obtain ⟨hs, hr⟩ := Prod.mk.injEq .. |>.mp h.symm
        subst hs; subst hr
        simpa using ih false p.1 p.2 hres
    | false =>
      by_cases hq : c = '"'
      · subst hq
        rw [lexStrF_quote] at h
        simp only [Option.some.injEq] at h
        obtain ⟨hs, hr⟩ := Prod.mk.injEq .. |>.mp h.symm
        subst hs; subst hr
        rfl
      · by_cases hb : c = '\\'
        · subst hb
          rw [lexStrF_backslash] at h
          cases hres : lexStrF true r with
          | none => rw [hres] at h; simp at h
          | some p =>
            rw [hres] at h
            simp only [Option.map_some', Option.some.injEq] at h
            obtain ⟨hs, hr⟩ := Prod.mk.injEq .. |>.mp h.symm
            subst hs; subst hr
            simpa using ih true p.1 p.2 hres
        · rw [lexStrF_char hq hb] at h
          cases hres : lexStrF false r with
          | none => rw [hres] at h; simp at h
          | some p =>
            rw [hres] at h
            simp only [Option.map_some', Option.some.injEq] at h
            obtain ⟨hs, hr⟩ := Prod.mk.injEq .. |>.mp h.symm
            subst hs; subst hr
            simpa using ih false p.1 p.2 hres

/-- The consumed part of a string lexeme re-lexes to itself, exhausted. -/
theorem lexStrF_self :
    ∀ (l : List Char) (f : Bool) (s rest : List Char),
      lexStrF f l = some (s, rest) → lexStrF f s = some (s, []) := by
  intro l
  induction l with
  | nil => intro f s rest h; cases f <;> simp [lexStrF] at h
  | cons c r ih =>
    intro f s rest h
    cases f with
    | true =>
      rw [lexStrF_true_cons] at h
      cases hres : lexStrF false r with
      | none => rw [hres] at h; simp at h
      | some p =>
        rw [hres] at h
        simp only [Option.map_some', Option.some.injEq] at h
        obtain ⟨hs, hr⟩ := Prod.mk.injEq .. |>.mp h.symm
        subst hs; subst hr
        rw [lexStrF_true_cons, ih false p.1 p.2 hres]
        rfl
    | false =>
      by_cases hq : c = '"'
      · subst hq
        rw [lexStrF_quote] at h
        simp only [Option.some.injEq] at h
        obtain ⟨hs, hr⟩ := Prod.mk.injEq .. |>.mp h.symm
        subst hs; subst hr
        rfl
      · by_cases hb : c = '\\'
        · subst hb
          rw [lexStrF_backslash] at h
          cases hres : lexStrF true r with
          | none => rw [hres] at h; simp at h
          | some p =>
            rw [hres] at h
            simp only [Option.map_some', Option.some.injEq] at h
            obtain ⟨hs, hr⟩ := Prod.mk.injEq .. |>.mp h.symm
            subst hs; subst hr
            rw [lexStrF_backslash, ih true p.1 p.2 hres]
            rfl
        · rw [lexStrF_char hq hb] at h
          cases hres : lexStrF false r with
          | none => rw [hres] at h; simp at h
          | some p =>
            rw [hres] at h
            simp only [Option.map_some', Option.some.injEq] at h
            obtain ⟨hs, hr⟩ := Prod.mk.injEq .. |>.mp h.symm
            subst hs; subst hr
            rw [lexStrF_char hq hb, ih false p.1 p.2 hres]
            rfl

/-- An exhausted string lexeme lexes the same with anything appended. -/
theorem lexStrF_extend :
    ∀ (b : List Char) (f : Bool) (s : List Char),
      lexStrF f b = some (s, []) →
      ∀ r, lexStrF f (b ++ r) = some (s, r) := by
  intro b
  induction b with
  | nil => intro f s h; cases f <;> simp [lexStrF] at h
  | cons c t ih =>
    intro f s h r
    cases f with
    | true =>
      rw [lexStrF_true_cons] at h
      cases hres : lexStrF false t with
      | none => rw [hres] at h; simp at h
      | some p =>
        rw [hres] at h
        simp only [Option.map_some', Option.some.injEq] at h
        obtain ⟨hs, hr⟩ := Prod.mk.injEq .. |>.mp h.symm
        subst hs
        have hp2 : lexStrF false t = some (p.1, []) := by
          rw [hres]
          cases p with
          | mk a b => simp only at hr ⊢; rw [← hr]
        rw [List.cons_append, lexStrF_true_cons, ih false p.1 hp2 r]
        rfl
    | false =>
      by_cases hq : c = '"'
      · subst hq
        rw [lexStrF_quote] at h
        simp only [Option.some.injEq] at h
        obtain ⟨hs, hr⟩ := Prod.mk.injEq .. |>.mp h.symm
        subst hs; subst hr
        rw [List.cons_append, lexStrF_quote]
        simp
      · by_cases hb : c = '\\'
        · subst hb
          rw [lexStrF_backslash] at h
          cases hres : lexStrF true t with
          | none => rw [hres] at h; simp at h
          | some p =>
            rw [hres] at h
            simp only [Option.map_some', Option.some.injEq] at h
            obtain ⟨hs, hr⟩ := Prod.mk.injEq .. |>.mp h.symm
            subst hs
            have hp2 : lexStrF true t = some (p.1, []) := by
              rw [hres]
              cases p with
              | mk a b => simp only at hr ⊢; rw [← hr]
            rw [List.cons_append, lexStrF_backslash, ih true p.1 hp2 r]
            rfl
        · rw [lexStrF_char hq hb] at h
          cases hres : lexStrF false t with
          | none => rw [hres] at h; simp at h
          | some p =>
            rw [hres] at h
            simp only [Option.map_some', Option.some.injEq] at h
            obtain ⟨hs, hr⟩ := Prod.mk.injEq .. |>.mp h.symm
            subst hs
            have hp2 : lexStrF false t = some (p.1, []) := by
              rw [hres]
              cases p with
              | mk a b => simp only at hr ⊢; rw [← hr]
            rw [List.cons_append, lexStrF_char hq hb, ih false p.1 hp2 r]
            rfl

/-- A string lexeme is never empty. -/
theorem lexStrF_fst_ne_nil :
    ∀ (l : List Char) (f : Bool) (s rest : List Char),
      lexStrF f l = some (s, rest) → s ≠ [] := by
  intro l f s rest h
  cases l with
  | nil => cases f <;> simp [lexStrF] at h
  | cons c r =>
    cases f with
    | true =>
      rw [lexStrF_true_cons] at h
      cases hres : lexStrF false r with
      | none => rw [hres] at h; simp at h
      | some p =>
        rw [hres] at h
        simp only [Option.map_some', Option.some.injEq] at h
        obtain ⟨hs, _⟩ := Prod.mk.injEq .. |>.mp h.symm
        subst hs; simp
    | false =>
      by_cases hq : c = '"'
      · subst hq
        rw [lexStrF_quote] at h
        simp only [Option.some.injEq] at h
        obtain ⟨hs, _⟩ := Prod.mk.injEq .. |>.mp h.symm
        subst hs; simp
      · by_cases hb : c = '\\'
        · subst hb
          rw [lexStrF_backslash] at h
          cases hres : lexStrF true r with
          | none => rw [hres] at h; simp at h
          | some p =>
            rw [hres] at h
            simp only [Option.map_some', Option.some.injEq] at h
            obtain ⟨hs, _⟩ := Prod.mk.injEq .. |>.mp h.symm
            subst hs; simp
        · rw [lexStrF_char hq hb] at h
          cases hres : lexStrF false r with
          | none => rw [hres] at h; simp at h
          | some p =>
            rw [hres] at h
            simp only [Option.map_some', Option.some.injEq] at h
            obtain ⟨hs, _⟩ := Prod.mk.injEq .. |>.mp h.symm
            subst hs; simp

/-- The rest after a string lexeme is strictly shorter than the input. -/
theorem lexStrF_rest_lt (l : List Char) (f : Bool) (s rest : List Char)
    (h : lexStrF f l = some (s, rest)) : rest.length < l.length := by
  have happ := lexStrF_append_rest l f s rest h
  have hs : s ≠ [] := lexStrF_fst_ne_nil l f s rest h
  have hpos : 0 < s.length := List.length_pos.mpr hs
  have : s.length + rest.length = l.length := by
    rw [← List.length_append, happ]
  omega

/-- The rest of a run is no longer than the input. -/
theorem lexRun_snd_le : ∀ l : List Char, (lexRun l).2.length ≤ l.length := by
  intro l
  induction l with
  | nil => simp [lexRun]
  | cons c r ih =>
    by_cases h : isRunChar c
    · simp only [lexRun, if_pos h, List.length_cons]
      omega
    · simp [lexRun, if_neg h]

/-- Every character of a run lexeme is a run character. -/
theorem lexRun_fst_all : ∀ l : List Char, (lexRun l).1.all isRunChar = true := by
  intro l
  induction l with
  | nil => simp [lexRun]
  | cons c r ih =>
    by_cases h : isRunChar c
    · simp only [lexRun, if_pos h, List.all_cons, Bool.and_eq_true]
      exact ⟨h, ih⟩
    · simp [lexRun, if_neg h]

/-- Lexing a run of run-characters against a non-run boundary. -/
theorem lexRun_boundary :
    ∀ (l r : List Char), l.all isRunChar = true →
      (∀ c, r.head? = some c → isRunChar c = false) →
      lexRun (l ++ r) = (l, r) := by
  intro l
  induction l with
  | nil =>
    intro r _ hb
    cases r with
    | nil => rfl
    | cons c t =>
      have := hb c rfl
      simp [lexRun, this]
  | cons c t ih =>
    intro r hall hb
    simp only [List.all_cons, Bool.and_eq_true] at hall
    have hih := ih r hall.2 hb
    rw [List.cons_append]
    simp only [lexRun, if_pos hall.1]
    rw [show lexRun (t ++ r) = (t, r) from hih]

/-- The tokeniser ignores the exact fuel, given enough of it. -/
theorem lexToksF_irrel :
    ∀ (f1 : Nat) (p : List Char) (f2 : Nat), p.length < f1 → p.length < f2 →
      lexToksF f1 p = lexToksF f2 p := by
  intro f1
  induction f1 with
  | zero => intro p f2 h1 _; omega
  | succ f1 ih =>
    intro p f2 h1 h2
    cases f2 with
    | zero => omega
    | succ f2 =>
      cases p with
      | nil => rfl
      | cons c r =>
        simp only [List.length_cons] at h1 h2
        simp only [lexToksF]
        by_cases hws : isWSChar c
        · rw [if_pos hws, if_pos hws]
          exact ih r f2 (by omega) (by omega)
        · rw [if_neg hws, if_neg hws]
          by_cases hc1 : c = '{'
          · rw [if_pos hc1, if_pos hc1, ih r f2 (by omega) (by omega)]
          · rw [if_neg hc1, if_neg hc1]
            by_cases hc2 : c = '}'
            · rw [if_pos hc2, if_pos hc2, ih r f2 (by omega) (by omega)]
            · rw [if_neg hc2, if_neg hc2]
              by_cases hc3 : c = '['
              · rw [if_pos hc3, if_pos hc3, ih r f2 (by omega) (by omega)]
              · rw [if_neg hc3, if_neg hc3]
                by_cases hc4 : c = ']'
                · rw [if_pos hc4, if_pos hc4, ih r f2 (by omega) (by omega)]
                · rw [if_neg hc4, if_neg hc4]
                  by_cases hc5 : c = ','
                  · rw [if_pos hc5, if_pos hc5, ih r f2 (by omega) (by omega)]
                  · rw [if_neg hc5, if_neg hc5]
                    by_cases hc6 : c = ':'
                    · rw [if_pos hc6, if_pos hc6, ih r f2 (by omega) (by omega)]
                    · rw [if_neg hc6, if_neg hc6]
                      by_cases hc7 : c = '"'
                      · rw [if_pos hc7, if_pos hc7]
                        cases hres : lexStr r with
                        | none => rfl
                        | some sr =>
                          have hlt := lexStrF_rest_lt r false sr.1 sr.2
                            (by rw [← hres]; cases sr; rfl)
                          show (lexToksF f1 sr.2).map
                              (fun ts => JTok.lit ('"' :: sr.1) :: ts) =
                            (lexToksF f2 sr.2).map
                              (fun ts => JTok.lit ('"' :: sr.1) :: ts)
                          rw [ih sr.2 f2 (by omega) (by omega)]
                      · rw [if_neg hc7, if_neg hc7]
                        have hdelim : isDelimChar c = false := by
                          simp [isDelimChar, hc1, hc2, hc3, hc4, hc5, hc6]
                        have hws' : isWSChar c = false := by simpa using hws
                        have hrc : isRunChar c = true := by
                          simp [isRunChar, hws', hdelim, hc7]
                        have hlen : (lexRun (c :: r)).2.length ≤ r.length := by
                          simp only [lexRun, if_pos hrc]
                          exact lexRun_snd_le r
                        rw [ih (lexRun (c :: r)).2 f2 (by omega) (by omega)]

/-- Whitespace before the rest of the input is skipped. -/
theorem lexToks_ws {c : Char} (hc : isWSChar c = true) (r : List Char) :
    lexToks (c :: r) = lexToks r := by
  show lexToksF (r.length + 1 + 1) (c :: r) = lexToksF (r.length + 1) r
  simp only [lexToksF]
  rw [if_pos hc]

/-- Any sequence of whitespace characters is skipped. -/
theorem lexToks_ws_prefix :
    ∀ (ws l : List Char), ws.all isWSChar = true → lexToks (ws ++ l) = lexToks l := by
  intro ws
  induction ws with
  | nil => intro l _; rfl
  | cons c t ih =>
    intro l hall
    simp only [List.all_cons, Bool.and_eq_true] at hall
    rw [List.cons_append, lexToks_ws hall.1, ih l hall.2]

/-- The newline-plus-tabs block `Indent` writes is whitespace. -/
theorem nlIndent_all_ws (d : Nat) : (nlIndent d).all isWSChar = true := by
  simp only [nlIndent, List.all_cons, Bool.and_eq_true]
  refine ⟨by decide, ?_⟩
  apply List.all_eq_true.mpr
  intro x hx
  rw [List.eq_of_mem_replicate hx]
  decide

/-- Unfolding: opening brace token. -/
theorem lexToks_lbrace (r : List Char) :
    lexToks ('{' :: r) = (lexToks r).map (fun ts => JTok.lbrace :: ts) := rfl

/-- Unfolding: closing brace token. -/
theorem lexToks_rbrace (r : List Char) :
    lexToks ('}' :: r) = (lexToks r).map (fun ts => JTok.rbrace :: ts) := rfl

/-- Unfolding: opening bracket token. -/
theorem lexToks_lbrack (r : List Char) :
    lexToks ('[' :: r) = (lexToks r).map (fun ts => JTok.lbrack :: ts) := rfl

/-- Unfolding: closing bracket token. -/
theorem lexToks_rbrack (r : List Char) :
    lexToks (']' :: r) = (lexToks r).map (fun ts => JTok.rbrack :: ts) := rfl

/-- Unfolding: comma token. -/
theorem lexToks_comma (r : List Char) :
    lexToks (',' :: r) = (lexToks r).map (fun ts => JTok.comma :: ts) := rfl

/-- Unfolding: colon token. -/
theorem lexToks_colon (r : List Char) :
    lexToks (':' :: r) = (lexToks r).map (fun ts => JTok.colon :: ts) := rfl

/-- A quote begins a string lexeme. -/
theorem lexToks_quote {r s rest : List Char} (h : lexStr r = some (s, rest)) :
    lexToks ('"' :: r) = (lexToks rest).map (fun ts => JTok.lit ('"' :: s) :: ts) := by
  have hlt : rest.length < r.length := lexStrF_rest_lt r false s rest h
  show lexToksF (r.length + 1 + 1) ('"' :: r) = _
  rw [show lexToksF (r.length + 1 + 1) ('"' :: r) =
      (match lexStr r with
       | none => none
       | some sr => (lexToksF (r.length + 1) sr.2).map
           (fun ts => JTok.lit ('"' :: sr.1) :: ts)) from rfl]
  rw [h]
  show (lexToksF (r.length + 1) rest).map (fun ts => JTok.lit ('"' :: s) :: ts) = _
  rw [lexToksF_irrel (r.length + 1) rest (rest.length + 1) (by omega) (by omega)]
  rfl

/-- A run character begins a run lexeme. -/
theorem lexToks_runtok {c : Char} (hrc : isRunChar c = true) (r : List Char) :
    lexToks (c :: r) =
      (lexToks (lexRun (c :: r)).2).map
        (fun ts => JTok.lit (lexRun (c :: r)).1 :: ts) := by
  have hparts : isWSChar c = false ∧ isDelimChar c = false ∧ (c != '"') = true := by
    simp only [isRunChar, Bool.and_eq_true, Bool.not_eq_true'] at hrc
    exact ⟨hrc.1.1, hrc.1.2, hrc.2⟩
  obtain ⟨hws, hdelim, hq⟩ := hparts
  have hq' : ¬ (c = '"') := by simpa using hq
  have hd1 : ¬ (c = '{') := by intro h; rw [h] at hdelim; simp [isDelimChar] at hdelim
  have hd2 : ¬ (c = '}') := by intro h; rw [h] at hdelim; simp [isDelimChar] at hdelim
  have hd3 : ¬ (c = '[') := by intro h; rw [h] at hdelim; simp [isDelimChar] at hdelim
  have hd4 : ¬ (c = ']') := by intro h; rw [h] at hdelim; simp [isDelimChar] at hdelim
  have hd5 : ¬ (c = ',') := by intro h; rw [h] at hdelim; simp [isDelimChar] at hdelim
  have hd6 : ¬ (c = ':') := by intro h; rw [h] at hdelim; simp [isDelimChar] at hdelim
  have hlen : (lexRun (c :: r)).2.length ≤ r.length := by
    simp only [lexRun, if_pos hrc]
    exact lexRun_snd_le r
  show lexToksF (r.length + 1 + 1) (c :: r) = _
  simp only [lexToksF]
  rw [if_neg (by simp [hws]), if_neg hd1, if_neg hd2, if_neg hd3, if_neg hd4,
    if_neg hd5, if_neg hd6, if_neg hq']
  rw [lexToksF_irrel (r.length + 1) (lexRun (c :: r)).2
    ((lexRun (c :: r)).2.length + 1) (by omega) (by omega)]
  rfl

/-- Tokens produced by the tokeniser are well formed. -/
theorem lexToksF_wf :
    ∀ (fuel : Nat) (p : List Char) (ts : List JTok),
      lexToksF fuel p = some ts → ∀ t ∈ ts, wfTok t = true := by
  intro fuel
  induction fuel with
  | zero => intro p ts h; simp [lexToksF] at h
  | succ fuel ih =>
    intro p ts h
    cases p with
    | nil =>
      simp only [lexToksF, Option.some.injEq] at h
      subst h
      intro t ht
      simp at ht
    | cons c r =>
      simp only [lexToksF] at h
      by_cases hws : isWSChar c
      · rw [if_pos hws] at h
        exact ih r ts h
      · rw [if_neg hws] at h
        by_cases hc1 : c = '{'
        · rw [if_pos hc1] at h
          cases hres : lexToksF fuel r with
          | none => rw [hres] at h; simp at h
          | some ts' =>
            rw [hres] at h
            simp only [Option.map_some', Option.some.injEq] at h
            subst h
            intro t ht
            rcases List.mem_cons.mp ht with h1 | h1
            · subst h1; rfl
            · exact ih r ts' hres t h1
        · rw [if_neg hc1] at h
          by_cases hc2 : c = '}'
          · rw [if_pos hc2] at h
            cases hres : lexToksF fuel r with
            | none => rw [hres] at h; simp at h
            | some ts' =>
              rw [hres] at h
              simp only [Option.map_some', Option.some.injEq] at h
              subst h
              intro t ht
              rcases List.mem_cons.mp ht with h1 | h1
              · subst h1; rfl
              · exact ih r ts' hres t h1
          · rw [if_neg hc2] at h
            by_cases hc3 : c = '['
            · rw [if_pos hc3] at h
              cases hres : lexToksF fuel r with
              | none => rw [hres] at h; simp at h
              | some ts' =>
                rw [hres] at h
                simp only [Option.map_some', Option.some.injEq] at h
                subst h
                intro t ht
                rcases List.mem_cons.mp ht with h1 | h1
                · subst h1; rfl
                · exact ih r ts' hres t h1
            · rw [if_neg hc3] at h
              by_cases hc4 : c = ']'
              · rw [if_pos hc4] at h
                cases hres : lexToksF fuel r with
                | none => rw [hres] at h; simp at h
                | some ts' =>
                  rw [hres] at h
                  simp only [Option.map_some', Option.some.injEq] at h
                  subst h
                  intro t ht
                  rcases List.mem_cons.mp ht with h1 | h1
                  · subst h1; rfl
                  · exact ih r ts' hres t h1
              · rw [if_neg hc4] at h
                by_cases hc5 : c = ','
                · rw [if_pos hc5] at h
                  cases hres : lexToksF fuel r with
                  | none => rw [hres] at h; simp at h
                  | some ts' =>
                    rw [hres] at h
                    simp only [Option.map_some', Option.some.injEq] at h
                    subst h
                    intro t ht
                    rcases List.mem_cons.mp ht with h1 | h1
                    · subst h1; rfl
                    · exact ih r ts' hres t h1
                · rw [if_neg hc5] at h
                  by_cases hc6 : c = ':'
                  · rw [if_pos hc6] at h
                    cases hres : lexToksF fuel r with
                    | none => rw [hres] at h; simp at h
                    | some ts' =>
                      rw [hres] at h
                      simp only [Option.map_some', Option.some.injEq] at h
                      subst h
                      intro t ht
                      rcases List.mem_cons.mp ht with h1 | h1
                      · subst h1; rfl
                      · exact ih r ts' hres t h1
                  · rw [if_neg hc6] at h
                    by_cases hc7 : c = '"'
                    · rw [if_pos hc7] at h
                      cases hstr : lexStr r with
                      | none => rw [hstr] at h; simp at h
                      | some sr =>
                        rw [hstr] at h
                        have h' : (lexToksF fuel sr.2).map
                            (fun ts => JTok.lit ('"' :: sr.1) :: ts) = some ts := h
                        cases hres : lexToksF fuel sr.2 with
                        | none =>
                          rw [hres] at h'
                          simp at h'
                        | some ts' =>
                          rw [hres] at h'
                          simp only [Option.map_some', Option.some.injEq] at h'
                          subst h'
                          intro t ht
                          rcases List.mem_cons.mp ht with h1 | h1
                          · subst h1
                            have hself : lexStrF false sr.1 = some (sr.1, []) := by
                              apply lexStrF_self r false sr.1 sr.2
                              rw [← hstr]
                              cases sr
                              rfl
                            simp only [wfTok, wfLit, if_pos rfl]
                            rw [show lexStr sr.1 = lexStrF false sr.1 from rfl, hself]
                            simp
                          · exact ih sr.2 ts' hres t h1
                    · rw [if_neg hc7] at h
                      cases hres : lexToksF fuel (lexRun (c :: r)).2 with
                      | none => rw [hres] at h; simp at h
                      | some ts' =>
                        rw [hres] at h
                        simp only [Option.map_some', Option.some.injEq] at h
                        subst h
                        intro t ht
                        have hdelim : isDelimChar c = false := by
                          simp [isDelimChar, hc1, hc2, hc3, hc4, hc5, hc6]
                        have hws' : isWSChar c = false := by simpa using hws
                        have hrc : isRunChar c = true := by
                          simp [isRunChar, hws', hdelim, hc7]
                        rcases List.mem_cons.mp ht with h1 | h1
                        · subst h1
                          have hfst : (lexRun (c :: r)).1 = c :: (lexRun r).1 := by
                            simp [lexRun, if_pos hrc]
                          simp only [wfTok, wfLit, hfst]
                          rw [if_neg hc7]
                          simp only [List.all_cons, Bool.and_eq_true]
                          exact ⟨hrc, lexRun_fst_all r⟩
                        · exact ih (lexRun (c :: r)).2 ts' hres t h1

/-- Tokens produced by `lexToks` are well formed. -/
theorem lexToks_wf {p : List Char} {ts : List JTok} (h : lexToks p = some ts) :
    ∀ t ∈ ts, wfTok t = true :=
  lexToksF_wf (p.length + 1) p ts h

/-! ## Scanner and indent-emission lemmas -/

/-- After a literal, the scanner next expects a colon, a comma/close, or is
done — never another literal. -/
theorem scanStep_lit_post {stk : List ScanCtx} {e : ScanExpect} {cs : List Char}
    {st' : List ScanCtx × ScanExpect}
    (h : scanStep (stk, e) (.lit cs) = some st') :
    st'.2 = .colonExp ∨ st'.2 = .commaOrClose ∨ st'.2 = .done := by
  cases e with
  | value =>
    have h' : some (stk, afterValue stk) = some st' := h
    cases h'
    cases stk with
    | nil => right; right; rfl
    | cons ctx s => right; left; rfl
  | valueOrClose =>
    have h' : some (stk, afterValue stk) = some st' := h
    cases h'
    cases stk with
    | nil => right; right; rfl
    | cons ctx s => right; left; rfl
  | keyOrClose =>
    have h' : some (stk, ScanExpect.colonExp) = some st' := h
    cases h'
    left; rfl
  | key =>
    have h' : some (stk, ScanExpect.colonExp) = some st' := h
    cases h'
    left; rfl
  | colonExp => exact absurd h (by simp [scanStep])
  | commaOrClose => exact absurd h (by simp [scanStep])
  | done => exact absurd h (by simp [scanStep])

/-- A literal is rejected right after another literal. -/
theorem scanStep_after_lit_none {stk : List ScanCtx} {e : ScanExpect}
    {cs : List Char} {st1 : List ScanCtx × ScanExpect}
    (hstep : scanStep (stk, e) (.lit cs) = some st1) (cs2 : List Char) :
    scanStep st1 (.lit cs2) = none := by
  rcases scanStep_lit_post hstep with h | h | h <;>
    (rcases st1 with ⟨stk1, e1⟩; simp only at h; subst h; simp [scanStep])

/-- A token stream the scanner accepts has no adjacent literals. -/
theorem scanFold_noAdjLits :
    ∀ (ts : List JTok) (st st' : List ScanCtx × ScanExpect),
      List.foldlM scanStep st ts = some st' → noAdjLits ts = true := by
  intro ts
  induction ts with
  | nil => intro st st' _; rfl
  | cons t rest ih =>
    intro st st' h
    rw [List.foldlM_cons] at h
    rcases Option.bind_eq_some.mp h with ⟨st1, hstep, hrest⟩
    cases rest with
    | nil => rfl
    | cons t2 r2 =>
      simp only [noAdjLits, Bool.and_eq_true]
      refine ⟨?_, ih st1 st' hrest⟩
      by_cases hl1 : isLitTok t = true
      · by_cases hl2 : isLitTok t2 = true
        · exfalso
          cases t with
          | lit cs =>
            cases t2 with
            | lit cs2 =>
              rw [List.foldlM_cons] at hrest
              rcases Option.bind_eq_some.mp hrest with ⟨st2, hstep2, _⟩
              rcases st with ⟨stk, e⟩
              rw [scanStep_after_lit_none hstep cs2] at hstep2
              cases hstep2
            | lbrace => simp [isLitTok] at hl2
            | rbrace => simp [isLitTok] at hl2
            | lbrack => simp [isLitTok] at hl2
            | rbrack => simp [isLitTok] at hl2
            | comma => simp [isLitTok] at hl2
            | colon => simp [isLitTok] at hl2
          | lbrace => simp [isLitTok] at hl1
          | rbrace => simp [isLitTok] at hl1
          | lbrack => simp [isLitTok] at hl1
          | rbrack => simp [isLitTok] at hl1
          | comma => simp [isLitTok] at hl1
          | colon => simp [isLitTok] at hl1
        · simp [Bool.not_eq_true] at hl2
          simp [hl2]
      · simp [Bool.not_eq_true] at hl1
        simp [hl1]

/-- A valid token stream has no adjacent literals. -/
theorem validToks_noAdjLits {ts : List JTok} (h : validToks ts = true) :
    noAdjLits ts = true := by
  simp only [validToks, decide_eq_true_eq] at h
  exact scanFold_noAdjLits ts ([], .value) ([], .done) h

/-- The tail of an adjacent-literal-free stream is adjacent-literal-free. -/
theorem noAdjLits_tail {t : JTok} {ts : List JTok}
    (h : noAdjLits (t :: ts) = true) : noAdjLits ts = true := by
  cases ts with
  | nil => rfl
  | cons t2 r => 
    simp only [noAdjLits, Bool.and_eq_true] at h
    exact h.2

/-- After a literal, the next token is not a literal. -/
theorem noAdjLits_head_lit {cs : List Char} {t2 : JTok} {r : List JTok}
    (h : noAdjLits (.lit cs :: t2 :: r) = true) : isLitTok t2 = false := by
  simp only [noAdjLits, isLitTok, Bool.true_and, Bool.and_eq_true,
    Bool.not_eq_true'] at h
  exact h.1

/-- The first emitted character of a literal-free head is never a run
character (it is whitespace or a structural character). -/
theorem emit_head_not_run (d : Nat) (ts : List JTok)
    (hh : ∀ cs, ts.head? ≠ some (JTok.lit cs)) :
    ∀ c, (emit d false ts).head? = some c → isRunChar c = false := by
  cases ts with
  | nil => intro c hc; simp [emit] at hc
  | cons t ts' =>
    cases t with
    | lit cs => exact absurd rfl (hh cs)
    | rbrace =>
      intro c hc
      simp only [emit, if_neg (by simp : ¬ (false = true)), nlIndent,
        List.cons_append, List.head?_cons, Option.some.injEq] at hc
      subst hc; decide
    | rbrack =>
      intro c hc
      simp only [emit, if_neg (by simp : ¬ (false = true)), nlIndent,
        List.cons_append, List.head?_cons, Option.some.injEq] at hc
      subst hc; decide
    | lbrace =>
      intro c hc
      simp only [emit, if_neg (by simp : ¬ (false = true)), List.nil_append,
        List.head?_cons, Option.some.injEq] at hc
      subst hc; decide
    | lbrack =>
      intro c hc
      simp only [emit, if_neg (by simp : ¬ (false = true)), List.nil_append,
        List.head?_cons, Option.some.injEq] at hc
      subst hc; decide
    | comma =>
      intro c hc
      simp only [emit, if_neg (by simp : ¬ (false = true)), List.nil_append,
        List.head?_cons, Option.some.injEq] at hc
      subst hc; decide
    | colon =>
      intro c hc
      simp only [emit, if_neg (by simp : ¬ (false = true)), List.nil_append,
        List.head?_cons, Option.some.injEq] at hc
      subst hc; decide

/-- Re-lexing `Indent`'s output recovers exactly the input tokens: the indent
transform changes only inter-token whitespace. -/
theorem lexToks_emit :
    ∀ (ts : List JTok), (∀ t ∈ ts, wfTok t = true) → noAdjLits ts = true →
      ∀ (d : Nat) (ni : Bool), lexToks (emit d ni ts) = some ts := by
  intro ts
  induction ts with
  | nil => intro _ _ d ni; rfl
  | cons t ts' ih =>
    intro hwf hadj d ni
    have hwf' : ∀ x ∈ ts', wfTok x = true :=
      fun x hx => hwf x (List.mem_cons_of_mem _ hx)
    have hadj' := noAdjLits_tail hadj
    cases t with
    | rbrace =>
      cases ni with
      | true =>
        rw [show emit d true (.rbrace :: ts') = '}' :: emit d false ts' from rfl,
          lexToks_rbrace, ih hwf' hadj' d false]
        rfl
      | false =>
        rw [show emit d false (.rbrace :: ts') =
            nlIndent (d - 1) ++ '}' :: emit (d - 1) false ts' from rfl,
          lexToks_ws_prefix _ _ (nlIndent_all_ws (d - 1)),
          lexToks_rbrace, ih hwf' hadj' (d - 1) false]
        rfl
    | rbrack =>
      cases ni with
      | true =>
        rw [show emit d true (.rbrack :: ts') = ']' :: emit d false ts' from rfl,
          lexToks_rbrack, ih hwf' hadj' d false]
        rfl
      | false =>
        rw [show emit d false (.rbrack :: ts') =
            nlIndent (d - 1) ++ ']' :: emit (d - 1) false ts' from rfl,
          lexToks_ws_prefix _ _ (nlIndent_all_ws (d - 1)),
          lexToks_rbrack, ih hwf' hadj' (d - 1) false]
        rfl
    | lbrace =>
      cases ni with
      | true =>
        rw [show emit d true (.lbrace :: ts') =
            nlIndent (d + 1) ++ '{' :: emit (d + 1) true ts' from rfl,
          lexToks_ws_prefix _ _ (nlIndent_all_ws (d + 1)),
          lexToks_lbrace, ih hwf' hadj' (d + 1) true]
        rfl
      | false =>
        rw [show emit d false (.lbrace :: ts') = '{' :: emit d true ts' from rfl,
          lexToks_lbrace, ih hwf' hadj' d true]
        rfl
    | lbrack =>
      cases ni with
      | true =>
        rw [show emit d true (.lbrack :: ts') =
            nlIndent (d + 1) ++ '[' :: emit (d + 1) true ts' from rfl,
          lexToks_ws_prefix _ _ (nlIndent_all_ws (d + 1)),
          lexToks_lbrack, ih hwf' hadj' (d + 1) true]
        rfl
      | false =>
        rw [show emit d false (.lbrack :: ts') = '[' :: emit d true ts' from rfl,
          lexToks_lbrack, ih hwf' hadj' d true]
        rfl
    | comma =>
      cases ni with
      | true =>
        rw [show emit d true (.comma :: ts') =
            nlIndent (d + 1) ++ ',' ::
              (nlIndent (d + 1) ++ emit (d + 1) false ts') from rfl,
          lexToks_ws_prefix _ _ (nlIndent_all_ws (d + 1)),
          lexToks_comma,
          lexToks_ws_prefix _ _ (nlIndent_all_ws (d + 1)),
          ih hwf' hadj' (d + 1) false]
        rfl
      | false =>
        rw [show emit d false (.comma :: ts') =
            ',' :: (nlIndent d ++ emit d false ts') from rfl,
          lexToks_comma,
          lexToks_ws_prefix _ _ (nlIndent_all_ws d),
          ih hwf' hadj' d false]
        rfl
    | colon =>
      cases ni with
      | true =>
        rw [show emit d true (.colon :: ts') =
            nlIndent (d + 1) ++ ':' :: ' ' :: emit (d + 1) false ts' from rfl,
          lexToks_ws_prefix _ _ (nlIndent_all_ws (d + 1)),
          lexToks_colon,
          lexToks_ws (by decide) (emit (d + 1) false ts'),
          ih hwf' hadj' (d + 1) false]
        rfl
      | false =>
        rw [show emit d false (.colon :: ts') =
            ':' :: ' ' :: emit d false ts' from rfl,
          lexToks_colon,
          lexToks_ws (by decide) (emit d false ts'),
          ih hwf' hadj' d false]
        rfl
    | lit cs =>
      have hw : wfLit cs = true := by
        have := hwf (.lit cs) (by simp)
        simpa [wfTok] using this
      have hh : ∀ cs2, ts'.head? ≠ some (JTok.lit cs2) := by
        intro cs2 hx
        cases ts' with
        | nil => simp at hx
        | cons t2 r2 =>
          simp only [List.head?_cons, Option.some.injEq] at hx
          subst hx
          have := noAdjLits_head_lit hadj
          simp [isLitTok] at this
      cases cs with
      | nil => simp [wfLit] at hw
      | cons c body =>
        by_cases hq : c = '"'
        · subst hq
          have hstr : ∃ a b, lexStr body = some (a, b) ∧ a = body ∧ b = [] := by
            rw [show wfLit ('"' :: body) =
                (match lexStr body with
                 | some sr => decide (sr.1 = body) && sr.2.isEmpty
                 | none => false) from rfl] at hw
            cases hres : lexStr body with
            | none => rw [hres] at hw; simp at hw
            | some sr =>
              obtain ⟨a0, b0⟩ := sr
              rw [hres] at hw
              simp only [Bool.and_eq_true, decide_eq_true_eq,
                List.isEmpty_iff] at hw
              exact ⟨a0, b0, rfl, hw.1, hw.2⟩
          obtain ⟨a, b, hres, h1, h2⟩ := hstr
          rw [h1, h2] at hres
          cases ni with
          | false =>
            rw [show emit d false (.lit ('"' :: body) :: ts') =
                '"' :: (body ++ emit d false ts') from rfl,
              lexToks_quote (show lexStr (body ++ emit d false ts') =
                some (body, emit d false ts') from
                lexStrF_extend body false body hres (emit d false ts')),
              ih hwf' hadj' d false]
            rfl
          | true =>
            rw [show emit d true (.lit ('"' :: body) :: ts') =
                nlIndent (d + 1) ++
                  ('"' :: (body ++ emit (d + 1) false ts')) from rfl,
              lexToks_ws_prefix _ _ (nlIndent_all_ws (d + 1)),
              lexToks_quote (show lexStr (body ++ emit (d + 1) false ts') =
                some (body, emit (d + 1) false ts') from
                lexStrF_extend body false body hres (emit (d + 1) false ts')),
              ih hwf' hadj' (d + 1) false]
            rfl
        · have hall : (c :: body).all isRunChar = true := by
            simp only [wfLit] at hw
            rw [if_neg hq] at hw
            exact hw
          have hrc : isRunChar c = true := by
            simp only [List.all_cons, Bool.and_eq_true] at hall
            exact hall.1
          cases ni with
          | false =>
            have hbound := emit_head_not_run d ts' hh
            have hrun : lexRun ((c :: body) ++ emit d false ts') =
                (c :: body, emit d false ts') :=
              lexRun_boundary _ _ hall hbound
            rw [show emit d false (.lit (c :: body) :: ts') =
                c :: (body ++ emit d false ts') from rfl,
              lexToks_runtok hrc,
              show lexRun (c :: (body ++ emit d false ts')) =
                (c :: body, emit d false ts') from hrun,
              ih hwf' hadj' d false]
            rfl
          | true =>
            have hbound := emit_head_not_run (d + 1) ts' hh
            have hrun : lexRun ((c :: body) ++ emit (d + 1) false ts') =
                (c :: body, emit (d + 1) false ts') :=
              lexRun_boundary _ _ hall hbound
            rw [show emit d true (.lit (c :: body) :: ts') =
                nlIndent (d + 1) ++
                  (c :: (body ++ emit (d + 1) false ts')) from rfl,
              lexToks_ws_prefix _ _ (nlIndent_all_ws (d + 1)),
              lexToks_runtok hrc,
              show lexRun (c :: (body ++ emit (d + 1) false ts')) =
                (c :: body, emit (d + 1) false ts') from hrun,
              ih hwf' hadj' (d + 1) false]
            rfl

/-! ## Claims about pretty-printing -/

/-- C4 counterexample: the payload `{ }` (valid JSON, accepted by the
persistence step) pretty-prints to `{}`; compacting the persisted bytes gives
`{}`, which is not byte-for-byte the original payload — compaction only
recovers the original when the fetched payload was already compact. -/
theorem compact_pretty_not_byte_identical :
    lexToks ['{', ' ', '}'] = some [JTok.lbrace, JTok.rbrace] ∧
    validToks [JTok.lbrace, JTok.rbrace] = true ∧
    goIndentBytes ['{', ' ', '}'] = .ok ['{', '}'] ∧
    compactBytes ['{', '}'] = .ok ['{', '}'] ∧
    (['{', '}'] : List Char) ≠ ['{', ' ', '}'] :=
  ⟨by decide, by decide, rfl, rfl, by decide⟩

/-- C4 (amended): for every payload the persistence step accepts,
pretty-printing is a formatting-only transform: the persisted bytes re-lex to
exactly the original tokens, compacting them yields the compaction of the
original payload, and the round trip is byte-for-byte exact whenever the
fetched payload was already compact (as Kubernetes wire payloads are). -/
theorem pretty_print_formatting_only (p : List Char) (ts : List JTok)
    (hlex : lexToks p = some ts) (hval : validToks ts = true) :
    goIndentBytes p = .ok (goIndentToks ts) ∧
    lexToks (goIndentToks ts) = some ts ∧
    compactBytes (goIndentToks ts) = .ok (renderCompact ts) ∧
    compactBytes p = .ok (renderCompact ts) ∧
    (p = renderCompact ts → compactBytes (goIndentToks ts) = .ok p) := by
  have hwf := lexToks_wf hlex
  have hadj := validToks_noAdjLits hval
  have hrt : lexToks (goIndentToks ts) = some ts := lexToks_emit ts hwf hadj 0 false
  refine ⟨?_, hrt, ?_, ?_, ?_⟩
  · simp [goIndentBytes, hlex, hval]
  · simp [compactBytes, hrt, hval]
  · simp [compactBytes, hlex, hval]
  · intro hp
    simp [compactBytes, hrt, hval, hp]

/-- Witness for C4 (amended): the compact payload `{"a":1}` round-trips
byte-for-byte through pretty-printing and compaction. -/
theorem pretty_print_formatting_only_witness :
    lexToks ['{', '"', 'a', '"', ':', '1', '}'] =
      some [JTok.lbrace, JTok.lit ['"', 'a', '"'], JTok.colon,
        JTok.lit ['1'], JTok.rbrace] ∧
    validToks [JTok.lbrace, JTok.lit ['"', 'a', '"'], JTok.colon,
        JTok.lit ['1'], JTok.rbrace] = true ∧
    compactBytes (goIndentToks [JTok.lbrace, JTok.lit ['"', 'a', '"'],
        JTok.colon, JTok.lit ['1'], JTok.rbrace]) =
      .ok ['{', '"', 'a', '"', ':', '1', '}'] :=
  ⟨by decide, by decide,
   (pretty_print_formatting_only ['{', '"', 'a', '"', ':', '1', '}']
     [JTok.lbrace, JTok.lit ['"', 'a', '"'], JTok.colon, JTok.lit ['1'],
      JTok.rbrace] (by decide) (by decide)).2.2.2.2 (by decide)⟩

/-! ## `writeJSONFile`, `getPath` and the extraction loops

External effects are an oracle: `fetch` maps a request path to a response
body or error, `mkdirErr`/`writeErr` give the filesystem outcome per
directory/file.  Runs produce a trace of actions; a disk is an association
list of written files, updated by the write actions in order. -/

/-- Oracle for the extraction phase's external effects. -/
structure FetchEnv where
  fetch : String → Except String (List Char)
  mkdirErr : String → Option String
  writeErr : String → Option String

/-- Actions an extraction run performs, in order. -/
inductive Act where
  | fetch (path : String)
  | mkdir (dir : String)
  | write (path : String) (content : List Char)
deriving DecidableEq

/-- `writeJSONFile(dir, name, jsonData)`: `os.MkdirAll`, `json.Indent` with
tab indent, then `os.WriteFile` to `filepath.Join(dir, filepath.Base(name))`;
the first failure aborts with a wrapped error. -/
def writeJSONFile (env : FetchEnv) (dir name : String) (jsonData : List Char) :
    List Act × Option String :=
  match env.mkdirErr dir with
  | some e => ([.mkdir dir],
      some ("failed to create output directory " ++ dir ++ ": " ++ e))
  | none =>
    match goIndentBytes jsonData with
    | .error e => ([.mkdir dir], some ("failed to pretty print JSON: " ++ e))
    | .ok out =>
      match env.writeErr (writeFilePath dir name) with
      | some e => ([.mkdir dir],
          some ("error writing file " ++ writeFilePath dir name ++ ": " ++ e))
      | none => ([.mkdir dir, .write (writeFilePath dir name) out], none)

/-- `getPath`: one GET, wrapping failures. -/
def getPath (env : FetchEnv) (path : String) : Except String (List Char) :=
  match env.fetch path with
  | .error e => .error ("failed to get path " ++ path ++ ": " ++ e)
  | .ok b => .ok b

/-- `fmt.Sprintf("apis__%s__%s_openapi.json", group, version)`. -/
def fileNameOf (gv : GroupVersion) : String :=
  "apis__" ++ gv.group ++ "__" ++ gv.version ++ "_openapi.json"

/-- `fmt.Sprintf("/openapi/v3/apis/%s/%s", group, version)`. -/
def v3PathOf (gv : GroupVersion) : String :=
  "/openapi/v3/apis/" ++ gv.group ++ "/" ++ gv.version

/-- `fmt.Sprintf("%s/%s", outputDir, "v3")`: the v3 output subdirectory. -/
def v3DirOf (outputDir : String) : String :=
  outputDir ++ "/v3"

/-- The file a group-version's v3 document is written to. -/
def v3FileOf (outputDir : String) (gv : GroupVersion) : String :=
  writeFilePath (v3DirOf outputDir) (fileNameOf gv)

/-- `extractOpenAPIv3`: for each registered API service, in registration
order, fetch its v3 discovery path and write the document; the first failure
aborts the loop. -/
def extractOpenAPIv3 (env : FetchEnv) (outputDir : String) :
    List GroupVersion → List Act × Option String
  | [] => ([], none)
  | gv :: rest =>
    match getPath env (v3PathOf gv) with
    | .error e => ([.fetch (v3PathOf gv)],
        some ("failed to get OpenAPI v3 path " ++ v3PathOf gv ++ ": " ++ e))
    | .ok body =>
      match writeJSONFile env (v3DirOf outputDir) (fileNameOf gv) body with
      | (wacts, some e) => (.fetch (v3PathOf gv) :: wacts,
          some ("failed to write OpenAPI v3 file: " ++ e))
      | (wacts, none) =>
        ((.fetch (v3PathOf gv) :: wacts) ++
            (extractOpenAPIv3 env outputDir rest).1,
          (extractOpenAPIv3 env outputDir rest).2)

/-- `extractOpenAPIv2`: fetch `/openapi/v2` and write `swagger.json` (the
fetch-error message says "v3" — a copy-paste slip faithfully modelled). -/
def extractOpenAPIv2 (env : FetchEnv) (outputDir : String) :
    List Act × Option String :=
  match getPath env "/openapi/v2" with
  | .error e => ([.fetch "/openapi/v2"],
      some ("failed to get OpenAPI v3 path /openapi/v2: " ++ e))
  | .ok body =>
    match writeJSONFile env outputDir "swagger.json" body with
    | (wacts, some e) => (.fetch "/openapi/v2" :: wacts,
        some ("failed to write OpenAPI v2 file: " ++ e))
    | (wacts, none) => (.fetch "/openapi/v2" :: wacts, none)

/-- The extraction phase of `extractOpenAPI`: v2 first, then v3; the first
failure is wrapped and returned. -/
def extractDocs (env : FetchEnv) (outputDir : String)
    (services : List GroupVersion) : List Act × Option String :=
  match extractOpenAPIv2 env outputDir with
  | (acts2, some e) => (acts2, some ("failed to extract OpenAPI v2 spec: " ++ e))
  | (acts2, none) =>
    match extractOpenAPIv3 env outputDir services with
    | (acts3, some e) =>
        (acts2 ++ acts3, some ("failed to extract OpenAPI v3 spec: " ++ e))
    | (acts3, none) => (acts2 ++ acts3, none)

/-- Write (or overwrite in place) one file on the disk. -/
def diskWrite : List (String × List Char) → String → List Char →
    List (String × List Char)
  | [], p, c => [(p, c)]
  | (q, d) :: rest, p, c =>
    if q = p then (q, c) :: rest else (q, d) :: diskWrite rest p c

/-- Apply a trace's write actions to a disk. -/
def applyActs (acts : List Act) (disk : List (String × List Char)) :
    List (String × List Char) :=
  acts.foldl (fun dsk a =>
    match a with
    | .write p c => diskWrite dsk p c
    | _ => dsk) disk

/-- Look a file up on the disk. -/
def diskLookup : List (String × List Char) → String → Option (List Char)
  | [], _ => none
  | (q, d) :: rest, p => if q = p then some d else diskLookup rest p

/-- The fetches of a trace, in order. -/
def fetchesOf (acts : List Act) : List String :=
  acts.filterMap (fun a =>
    match a with
    | .fetch p => some p
    | _ => none)

/-- The response body an oracle returns for a path (junk on error). -/
def bodyOf (env : FetchEnv) (path : String) : List Char :=
  match env.fetch path with
  | .ok b => b
  | .error _ => []

/-- The indented form of a path's response body (junk on error). -/
def indentedOf (env : FetchEnv) (path : String) : List Char :=
  match goIndentBytes (bodyOf env path) with
  | .ok o => o
  | .error _ => []

/-- A fetch of `path` succeeds and yields a JSON body `Indent` accepts. -/
def fetchGood (env : FetchEnv) (path : String) : Prop :=
  ∃ b o, env.fetch path = .ok b ∧ goIndentBytes b = .ok o

/-- The whole v3 step for one group-version succeeds. -/
def stepGood (env : FetchEnv) (outputDir : String) (gv : GroupVersion) : Prop :=
  fetchGood env (v3PathOf gv) ∧ env.mkdirErr (v3DirOf outputDir) = none ∧
    env.writeErr (v3FileOf outputDir gv) = none

/-- The v2 fetch-and-write succeeds. -/
def v2Good (env : FetchEnv) (outputDir : String) : Prop :=
  fetchGood env "/openapi/v2" ∧ env.mkdirErr outputDir = none ∧
    env.writeErr (writeFilePath outputDir "swagger.json") = none

/-- The actions of one successful v3 step. -/
def v3StepActs (env : FetchEnv) (outputDir : String) (gv : GroupVersion) :
    List Act :=
  [.fetch (v3PathOf gv), .mkdir (v3DirOf outputDir),
   .write (v3FileOf outputDir gv) (indentedOf env (v3PathOf gv))]

/-- The actions of a fully successful v3 loop, in registration order. -/
def canonicalV3Acts (env : FetchEnv) (outputDir : String)
    (services : List GroupVersion) : List Act :=
  (services.map (v3StepActs env outputDir)).flatten

/-- The actions of a successful v2 extraction. -/
def canonicalV2Acts (env : FetchEnv) (outputDir : String) : List Act :=
  [.fetch "/openapi/v2", .mkdir outputDir,
   .write (writeFilePath outputDir "swagger.json") (indentedOf env "/openapi/v2")]

/-! ## Extraction lemmas -/

/-- A fully successful `writeJSONFile`. -/
theorem writeJSONFile_ok (env : FetchEnv) (dir name : String)
    {data out : List Char} (hmk : env.mkdirErr dir = none)
    (hind : goIndentBytes data = .ok out)
    (hwr : env.writeErr (writeFilePath dir name) = none) :
    writeJSONFile env dir name data =
      ([.mkdir dir, .write (writeFilePath dir name) out], none) := by
  unfold writeJSONFile
  rw [hmk, hind, hwr]

/-- A successful v3 step prepends its canonical actions. -/
theorem extractOpenAPIv3_cons_ok (env : FetchEnv) (outputDir : String)
    (gv : GroupVersion) (rest : List GroupVersion)
    (hgood : stepGood env outputDir gv) :
    extractOpenAPIv3 env outputDir (gv :: rest) =
      (v3StepActs env outputDir gv ++ (extractOpenAPIv3 env outputDir rest).1,
       (extractOpenAPIv3 env outputDir rest).2) := by
  obtain ⟨⟨b, o, hb, ho⟩, hmk, hwr⟩ := hgood
  have hbody : bodyOf env (v3PathOf gv) = b := by
    simp [bodyOf, hb]
  have hio : indentedOf env (v3PathOf gv) = o := by
    simp [indentedOf, hbody, ho]
  have hget : getPath env (v3PathOf gv) = .ok b := by
    simp [getPath, hb]
  have hw := writeJSONFile_ok env (v3DirOf outputDir) (fileNameOf gv) hmk ho hwr
  simp only [extractOpenAPIv3, hget, hw, v3StepActs, hio]
  simp
  rfl

/-- A fully successful v3 loop produces exactly the canonical actions. -/
theorem extractOpenAPIv3_all_ok (env : FetchEnv) (outputDir : String) :
    ∀ services : List GroupVersion,
      (∀ gv ∈ services, stepGood env outputDir gv) →
      extractOpenAPIv3 env outputDir services =
        (canonicalV3Acts env outputDir services, none) := by
  intro services
  induction services with
  | nil => intro _; rfl
  | cons gv rest ih =>
    intro hgood
    rw [extractOpenAPIv3_cons_ok env outputDir gv rest (hgood gv (by simp)),
      ih (fun x hx => hgood x (by simp [hx]))]
    simp [canonicalV3Acts]

/-- A good prefix contributes its canonical actions, whatever follows. -/
theorem extractOpenAPIv3_prefix (env : FetchEnv) (outputDir : String) :
    ∀ (pre rest : List GroupVersion),
      (∀ gv ∈ pre, stepGood env outputDir gv) →
      extractOpenAPIv3 env outputDir (pre ++ rest) =
        (canonicalV3Acts env outputDir pre ++
          (extractOpenAPIv3 env outputDir rest).1,
         (extractOpenAPIv3 env outputDir rest).2) := by
  intro pre
  induction pre with
  | nil => intro rest _; simp [canonicalV3Acts]
  | cons gv t ih =>
    intro rest hgood
    rw [List.cons_append,
      extractOpenAPIv3_cons_ok env outputDir gv (t ++ rest) (hgood gv (by simp)),
      ih rest (fun x hx => hgood x (by simp [hx]))]
    simp [canonicalV3Acts]

/-- A failing head aborts the loop exactly as it aborts alone. -/
theorem extractOpenAPIv3_fail_head (env : FetchEnv) (outputDir : String)
    (gv : GroupVersion) (post : List GroupVersion)
    (hfail : (extractOpenAPIv3 env outputDir [gv]).2.isSome = true) :
    extractOpenAPIv3 env outputDir (gv :: post) =
      extractOpenAPIv3 env outputDir [gv] := by
  cases hget : getPath env (v3PathOf gv) with
  | error e => simp only [extractOpenAPIv3, hget]
  | ok body =>
    cases hw : writeJSONFile env (v3DirOf outputDir) (fileNameOf gv) body with
    | mk wacts werr =>
      cases werr with
      | some e => simp only [extractOpenAPIv3, hget, hw]
      | none =>
        exfalso
        simp only [extractOpenAPIv3, hget, hw] at hfail
        simp at hfail

/-- A successful v2 extraction produces its canonical actions. -/
theorem extractOpenAPIv2_ok (env : FetchEnv) (outputDir : String)
    (hgood : v2Good env outputDir) :
    extractOpenAPIv2 env outputDir = (canonicalV2Acts env outputDir, none) := by
  obtain ⟨⟨b, o, hb, ho⟩, hmk, hwr⟩ := hgood
  have hbody : bodyOf env "/openapi/v2" = b := by
    simp [bodyOf, hb]
  have hio : indentedOf env "/openapi/v2" = o := by
    simp [indentedOf, hbody, ho]
  have hget : getPath env "/openapi/v2" = .ok b := by
    simp [getPath, hb]
  have hw := writeJSONFile_ok env outputDir "swagger.json" hmk ho hwr
  simp only [extractOpenAPIv2, hget, hw, canonicalV2Acts, hio]

/-- A fully successful extraction phase: canonical actions, no error. -/
theorem extractDocs_all_ok (env : FetchEnv) (outputDir : String)
    (services : List GroupVersion) (h2 : v2Good env outputDir)
    (h3 : ∀ gv ∈ services, stepGood env outputDir gv) :
    extractDocs env outputDir services =
      (canonicalV2Acts env outputDir ++ canonicalV3Acts env outputDir services,
       none) := by
  simp only [extractDocs, extractOpenAPIv2_ok env outputDir h2,
    extractOpenAPIv3_all_ok env outputDir services h3]

/-- The fetches of the canonical v3 trace, in registration order. -/
theorem fetchesOf_canonicalV3 (env : FetchEnv) (outputDir : String) :
    ∀ services : List GroupVersion,
      fetchesOf (canonicalV3Acts env outputDir services) =
        services.map v3PathOf := by
  intro services
  induction services with
  | nil => rfl
  | cons gv rest ih =>
    have hsplit : canonicalV3Acts env outputDir (gv :: rest) =
        v3StepActs env outputDir gv ++ canonicalV3Acts env outputDir rest := by
      simp [canonicalV3Acts]
    rw [hsplit]
    simp only [fetchesOf, List.filterMap_append] at ih ⊢
    rw [ih]
    rfl

/-- The fetches of the whole canonical trace: v2 first, then one per
registered group-version, in registration order. -/
theorem fetchesOf_canonical (env : FetchEnv) (outputDir : String)
    (services : List GroupVersion) :
    fetchesOf (canonicalV2Acts env outputDir ++
      canonicalV3Acts env outputDir services) =
    "/openapi/v2" :: services.map v3PathOf := by
  have h3 := fetchesOf_canonicalV3 env outputDir services
  simp only [fetchesOf, List.filterMap_append] at h3 ⊢
  rw [h3]
  rfl

/-! ## Disk lemmas -/

/-- Applying a concatenated trace applies the pieces in order. -/
theorem applyActs_append (a b : List Act) (disk : List (String × List Char)) :
    applyActs (a ++ b) disk = applyActs b (applyActs a disk) :=
  List.foldl_append _ _ a b

/-- Looking up a file right after writing it. -/
theorem diskLookup_write_self :
    ∀ (dsk : List (String × List Char)) (p : String) (c : List Char),
      diskLookup (diskWrite dsk p c) p = some c := by
  intro dsk
  induction dsk with
  | nil => intro p c; simp [diskWrite, diskLookup]
  | cons qd rest ih =>
    intro p c
    obtain ⟨q, d⟩ := qd
    by_cases h : q = p
    · simp [diskWrite, diskLookup, h]
    · simp only [diskWrite, if_neg h, diskLookup]
      exact ih p c

/-- Writing one file leaves the others unchanged. -/
theorem diskLookup_write_other :
    ∀ (dsk : List (String × List Char)) (q : String) (c : List Char)
      (p : String), q ≠ p →
      diskLookup (diskWrite dsk q c) p = diskLookup dsk p := by
  intro dsk
  induction dsk with
  | nil => intro q c p h; simp [diskWrite, diskLookup, h]
  | cons qd rest ih =>
    intro q c p h
    obtain ⟨q0, d⟩ := qd
    by_cases h0 : q0 = q
    · subst h0
      simp only [diskWrite, if_pos rfl, diskLookup]
      rw [if_neg h, if_neg h]
    · simp only [diskWrite, if_neg h0, diskLookup]
      by_cases h1 : q0 = p
      · rw [if_pos h1, if_pos h1]
      · rw [if_neg h1, if_neg h1]
        exact ih q c p h

/-- Unfolding: one trace step. -/
theorem applyActs_cons (a : Act) (rest : List Act)
    (disk : List (String × List Char)) :
    applyActs (a :: rest) disk =
      applyActs rest (match a with
        | Act.write q c => diskWrite disk q c
        | _ => disk) := rfl

/-- A file whose content no later write changes survives the trace. -/
theorem applyActs_preserve :
    ∀ (acts : List Act) (disk : List (String × List Char)) (p : String)
      (c : List Char),
      diskLookup disk p = some c →
      (∀ q c', Act.write q c' ∈ acts → q = p → c' = c) →
      diskLookup (applyActs acts disk) p = some c := by
  intro acts
  induction acts with
  | nil => intro disk p c h _; exact h
  | cons a rest ih =>
    intro disk p c h hc
    rw [applyActs_cons]
    cases a with
    | write q c' =>
      by_cases hq : q = p
      · have hcc : c' = c := hc q c' (by simp) hq
        rw [hq, hcc]
        exact ih _ p c (diskLookup_write_self disk p c)
          (fun q2 c2 h2 => hc q2 c2 (by simp [h2]))
      · refine ih _ p c ?_ (fun q2 c2 h2 => hc q2 c2 (by simp [h2]))
        rw [diskLookup_write_other disk q c' p hq]
        exact h
    | fetch path => exact ih disk p c h (fun q2 c2 h2 => hc q2 c2 (by simp [h2]))
    | mkdir dir => exact ih disk p c h (fun q2 c2 h2 => hc q2 c2 (by simp [h2]))

/-- The keys after a write: unchanged, or extended by the new path. -/
theorem diskWrite_keys :
    ∀ (dsk : List (String × List Char)) (p : String) (c : List Char),
      (diskWrite dsk p c).map Prod.fst = dsk.map Prod.fst ∨
      (diskWrite dsk p c).map Prod.fst = dsk.map Prod.fst ++ [p] ∧
        p ∉ dsk.map Prod.fst := by
  intro dsk
  induction dsk with
  | nil => intro p c; right; simp [diskWrite]
  | cons qd rest ih =>
    intro p c
    obtain ⟨q, d⟩ := qd
    by_cases h : q = p
    · left; simp [diskWrite, h]
    · rcases ih p c with h1 | ⟨h1, h2⟩
      · left; simp [diskWrite, if_neg h, h1]
      · right
        constructor
        · simp [diskWrite, if_neg h, h1]
        · simp only [List.map_cons, List.mem_cons]
          rintro (h3 | h3)
          · exact h (h3.symm)
          · exact h2 h3

/-- Writes keep the disk's keys duplicate-free. -/
theorem diskWrite_keys_nodup {dsk : List (String × List Char)} {p : String}
    {c : List Char} (h : (dsk.map Prod.fst).Nodup) :
    ((diskWrite dsk p c).map Prod.fst).Nodup := by
  rcases diskWrite_keys dsk p c with h1 | ⟨h1, h2⟩
  · rw [h1]; exact h
  · rw [h1]
    simp [List.nodup_append, h, h2]

/-- A trace keeps the disk's keys duplicate-free. -/
theorem applyActs_keys_nodup :
    ∀ (acts : List Act) (disk : List (String × List Char)),
      (disk.map Prod.fst).Nodup →
      ((applyActs acts disk).map Prod.fst).Nodup := by
  intro acts
  induction acts with
  | nil => intro disk h; exact h
  | cons a rest ih =>
    intro disk h
    rw [applyActs_cons]
    cases a with
    | write q c' => exact ih _ (diskWrite_keys_nodup h)
    | fetch path => exact ih disk h
    | mkdir dir => exact ih disk h

/-- Every write in the canonical v3 trace is one group-version's file. -/
theorem canonicalV3_write_mem (env : FetchEnv) (out : String) :
    ∀ (l : List GroupVersion) (q : String) (c : List Char),
      Act.write q c ∈ canonicalV3Acts env out l →
      ∃ gv, gv ∈ l ∧ q = v3FileOf out gv ∧ c = indentedOf env (v3PathOf gv) := by
  intro l
  induction l with
  | nil => intro q c h; simp [canonicalV3Acts] at h
  | cons s rest ih =>
    intro q c h
    have hsplit : canonicalV3Acts env out (s :: rest) =
        v3StepActs env out s ++ canonicalV3Acts env out rest := by
      simp [canonicalV3Acts]
    rw [hsplit] at h
    rcases List.mem_append.mp h with h1 | h1
    · simp only [v3StepActs, List.mem_cons, List.mem_singleton] at h1
      rcases h1 with h2 | h2 | h2
      · cases h2
      · cases h2
      · rcases h2 with ⟨rfl, rfl⟩ | h3
        · exact ⟨s, by simp, rfl, rfl⟩
        · cases h3
    · obtain ⟨gv, hgv, hq, hc⟩ := ih q c h1
      exact ⟨gv, by simp [hgv], hq, hc⟩

/-! ## Destination-path lemmas -/

/-- The characters of the v3 subdirectory path. -/
theorem v3DirOf_data (out : String) :
    (v3DirOf out).data = out.data ++ '/' :: ['v', '3'] := by
  show (out ++ "/v3").data = _
  rw [strData_append]

/-- The v3 subdirectory path is never the empty string. -/
theorem v3DirOf_ne_empty (out : String) : v3DirOf out ≠ "" := by
  intro h
  have hdata := congrArg String.data h
  rw [v3DirOf_data] at hdata
  simp at hdata

/-- An ordinary component is fixed by `Base`. -/
theorem goBase_normal {s : String} (h : normalComp s.data = true) :
    goBase s = s := by
  apply String.ext
  show baseL s.data = s.data
  have hco : compOk s.data = true := by
    simp only [normalComp, Bool.and_eq_true] at h
    exact h.1.1
  simp only [compOk, Bool.and_eq_true] at hco
  exact baseL_fixed (by simpa using hco.1) hco.2

/-- Components and rootedness of a group-version's v3 destination file. -/
theorem v3File_comps (out : String) (gv : GroupVersion) (hout : out ≠ "")
    (hn : normalComp (fileNameOf gv).data = true) :
    pathComps (v3FileOf out gv).data =
      cleanCompsL (rootedL out.data) (pathComps out.data) ++
        [['v', '3'], (fileNameOf gv).data] ∧
    rootedL (v3FileOf out gv).data = rootedL out.data := by
  have hbase : goBase (fileNameOf gv) = fileNameOf gv := goBase_normal hn
  have h1 := writeFilePath_comps (v3DirOf out) (fileNameOf gv)
    (v3DirOf_ne_empty out) (by rw [hbase]; exact hn)
  have hsplit : pathComps (v3DirOf out).data =
      pathComps out.data ++ [['v', '3']] := by
    show splitCompsAux [] (v3DirOf out).data = _
    rw [v3DirOf_data]
    exact splitCompsAux_append_comp out.data [] ['v', '3'] (by decide)
  have hrooted : rootedL (v3DirOf out).data = rootedL out.data := by
    rw [v3DirOf_data]
    cases hd : out.data with
    | nil => exact absurd hd (strData_ne_nil hout)
    | cons c t => rfl
  have hclean : cleanCompsL (rootedL out.data)
      (pathComps out.data ++ [['v', '3']]) =
      cleanCompsL (rootedL out.data) (pathComps out.data) ++ [['v', '3']] :=
    cleanCompsL_append_normal _ _ (by decide)
  simp only [v3FileOf]
  constructor
  · rw [h1.1, hbase, hrooted, hsplit, hclean]
    simp
  · rw [h1.2, hrooted]

/-- Components and rootedness of the `swagger.json` destination. -/
theorem swagger_comps (out : String) (hout : out ≠ "") :
    pathComps (writeFilePath out "swagger.json").data =
      cleanCompsL (rootedL out.data) (pathComps out.data) ++
        [("swagger.json").data] ∧
    rootedL (writeFilePath out "swagger.json").data = rootedL out.data := by
  have h1 := writeFilePath_comps out "swagger.json" hout (by decide)
  rw [show (goBase "swagger.json").data = ("swagger.json").data from rfl] at h1
  exact h1

/-- The v2 and v3 destinations never collide. -/
theorem swagger_ne_v3File (out : String) (gv : GroupVersion) (hout : out ≠ "")
    (hn : normalComp (fileNameOf gv).data = true) :
    writeFilePath out "swagger.json" ≠ v3FileOf out gv := by
  intro heq
  have h1 := (swagger_comps out hout).1
  have h2 := (v3File_comps out gv hout hn).1
  rw [heq] at h1
  rw [h1] at h2
  have hlen := congrArg List.length h2
  simp at hlen

/-- Two group-versions with the same v3 destination have the same filename. -/
theorem v3File_inj (out : String) (gv1 gv2 : GroupVersion) (hout : out ≠ "")
    (h1 : normalComp (fileNameOf gv1).data = true)
    (h2 : normalComp (fileNameOf gv2).data = true)
    (heq : v3FileOf out gv1 = v3FileOf out gv2) :
    fileNameOf gv1 = fileNameOf gv2 := by
  have c1 := (v3File_comps out gv1 hout h1).1
  have c2 := (v3File_comps out gv2 hout h2).1
  rw [heq] at c1
  rw [c1] at c2
  have := List.append_cancel_left c2
  simp only [List.cons.injEq] at this
  exact String.ext this.2.1

/-- Every group-version's file survives a full canonical v3 trace with its
own content (duplicates rewrite the same bytes; name collisions are excluded
by the filename-injectivity hypothesis). -/
theorem canonicalV3_lookup (env : FetchEnv) (out : String) (hout : out ≠ "") :
    ∀ (l : List GroupVersion),
      (∀ gv ∈ l, normalComp (fileNameOf gv).data = true) →
      (∀ gv1 ∈ l, ∀ gv2 ∈ l, fileNameOf gv1 = fileNameOf gv2 →
        v3PathOf gv1 = v3PathOf gv2) →
      ∀ (disk : List (String × List Char)), ∀ gv ∈ l,
        diskLookup (applyActs (canonicalV3Acts env out l) disk)
            (v3FileOf out gv) =
          some (indentedOf env (v3PathOf gv)) := by
  intro l
  induction l with
  | nil => intro _ _ disk gv hgv; simp at hgv
  | cons s rest ih =>
    intro hn hinj disk gv hgv
    have hsplit : canonicalV3Acts env out (s :: rest) =
        v3StepActs env out s ++ canonicalV3Acts env out rest := by
      simp [canonicalV3Acts]
    rw [hsplit, applyActs_append]
    have hstep : applyActs (v3StepActs env out s) disk =
        diskWrite disk (v3FileOf out s) (indentedOf env (v3PathOf s)) := rfl
    rw [hstep]
    rcases List.mem_cons.mp hgv with heq | hmem
    · subst heq
      apply applyActs_preserve
      · exact diskLookup_write_self disk _ _
      · intro q c' hw hqp
        obtain ⟨gv', hgv', hq, hc⟩ := canonicalV3_write_mem env out rest q c' hw
        have hfiles : v3FileOf out gv' = v3FileOf out gv := by
          rw [← hq, hqp]
        have hfn := v3File_inj out gv' gv hout
          (hn gv' (by simp [hgv'])) (hn gv (by simp)) hfiles
        have hpath := hinj gv' (by simp [hgv']) gv (by simp) hfn
        rw [hc, hpath]
    · exact ih (fun x hx => hn x (by simp [hx]))
        (fun x1 hx1 x2 hx2 => hinj x1 (by simp [hx1]) x2 (by simp [hx2]))
        _ gv hmem

/-- A failing `writeJSONFile` performs no write. -/
theorem writeJSONFile_fail_acts (env : FetchEnv) (dir name : String)
    (data : List Char)
    (h : (writeJSONFile env dir name data).2.isSome = true) :
    (writeJSONFile env dir name data).1 = [.mkdir dir] := by
  unfold writeJSONFile at h ⊢
  cases hmk : env.mkdirErr dir with
  | some e => rfl
  | none =>
    cases hind : goIndentBytes data with
    | error e => rfl
    | ok outb =>
      cases hwr : env.writeErr (writeFilePath dir name) with
      | some e => rfl
      | none =>
        rw [hmk, hind, hwr] at h
        have hfalse : (false : Bool) = true := h
        cases hfalse

/-- A failing single-step v3 loop performs no write. -/
theorem failStep_no_writes (env : FetchEnv) (out : String) (gv : GroupVersion)
    (hfail : (extractOpenAPIv3 env out [gv]).2.isSome = true) :
    ∀ q c, Act.write q c ∉ (extractOpenAPIv3 env out [gv]).1 := by
  intro q c hw
  cases hget : getPath env (v3PathOf gv) with
  | error e =>
    simp only [extractOpenAPIv3, hget] at hw
    simp at hw
  | ok body =>
    cases hwje : writeJSONFile env (v3DirOf out) (fileNameOf gv) body with
    | mk wacts werr =>
      cases werr with
      | some e =>
        have hacts : wacts = [.mkdir (v3DirOf out)] := by
          have := writeJSONFile_fail_acts env (v3DirOf out) (fileNameOf gv) body
            (by rw [hwje]; rfl)
          rw [hwje] at this
          exact this
        subst hacts
        simp only [extractOpenAPIv3, hget, hwje] at hw
        simp at hw
      | none =>
        simp only [extractOpenAPIv3, hget, hwje] at hfail
        simp [extractOpenAPIv3] at hfail

/-! ## Readiness-set construction lemmas -/

/-- Membership after a set insert. -/
theorem insertGV_mem (l : List GroupVersion) (g x : GroupVersion) :
    x ∈ insertGV l g ↔ x ∈ l ∨ x = g := by
  unfold insertGV
  by_cases h : g ∈ l
  · rw [if_pos h]
    constructor
    · exact fun hx => Or.inl hx
    · rintro (hx | rfl)
      · exact hx
      · exact h
  · rw [if_neg h]
    simp

/-- Membership in the folded set build. -/
theorem gvSetOf_mem_aux :
    ∀ (l acc : List GroupVersion) (x : GroupVersion),
      x ∈ l.foldl insertGV acc ↔ x ∈ acc ∨ x ∈ l := by
  intro l
  induction l with
  | nil => intro acc x; simp
  | cons g t ih =>
    intro acc x
    rw [List.foldl_cons, ih (insertGV acc g) x, insertGV_mem]
    constructor
    · rintro ((hx | rfl) | hx)
      · exact Or.inl hx
      · exact Or.inr (by simp)
      · exact Or.inr (by simp [hx])
    · rintro (hx | hx)
      · exact Or.inl (Or.inl hx)
      · rcases List.mem_cons.mp hx with rfl | hx2
        · exact Or.inl (Or.inr rfl)
        · exact Or.inr hx2

/-- The readiness set contains exactly the registered group-versions. -/
theorem gvSetOf_mem (services : List GroupVersion) (x : GroupVersion) :
    x ∈ gvSetOf services ↔ x ∈ services := by
  have := gvSetOf_mem_aux services [] x
  simpa [gvSetOf] using this

/-- A set insert keeps the list duplicate-free. -/
theorem insertGV_nodup {l : List GroupVersion} (h : l.Nodup) (g : GroupVersion) :
    (insertGV l g).Nodup := by
  unfold insertGV
  by_cases hg : g ∈ l
  · rw [if_pos hg]; exact h
  · rw [if_neg hg]
    simp [List.nodup_append, h, hg]

/-- The folded set build is duplicate-free. -/
theorem gvSetOf_nodup_aux :
    ∀ (l acc : List GroupVersion), acc.Nodup → (l.foldl insertGV acc).Nodup := by
  intro l
  induction l with
  | nil => intro acc h; exact h
  | cons g t ih =>
    intro acc h
    rw [List.foldl_cons]
    exact ih (insertGV acc g) (insertGV_nodup h g)

/-- The readiness set deduplicates: no group-version appears twice. -/
theorem gvSetOf_nodup (services : List GroupVersion) :
    (gvSetOf services).Nodup :=
  gvSetOf_nodup_aux services [] (by simp)

/-! ## Claims about the extraction phase -/

/-- C5: extraction fetches `/openapi/v2` first, then exactly one v3 document
per registered group-version, strictly sequentially in registration order —
the whole trace (fetches interleaved with directory creations and writes) is
the canonical function of the registered list and the response oracle, hence
deterministic across runs. -/
theorem extraction_sequential_in_registration_order (env : FetchEnv)
    (outputDir : String) (services : List GroupVersion)
    (h2 : v2Good env outputDir)
    (h3 : ∀ gv ∈ services, stepGood env outputDir gv) :
    extractDocs env outputDir services =
      (canonicalV2Acts env outputDir ++ canonicalV3Acts env outputDir services,
       none) ∧
    fetchesOf (extractDocs env outputDir services).1 =
      "/openapi/v2" :: services.map v3PathOf := by
  have h := extractDocs_all_ok env outputDir services h2 h3
  refine ⟨h, ?_⟩
  rw [h]
  exact fetchesOf_canonical env outputDir services

/-- Witness for C5: two registered group-versions, an always-succeeding
oracle; the fetch sequence is v2 then the two v3 paths in registration
order. -/
theorem extraction_sequential_in_registration_order_witness :
    v2Good ⟨fun _ => .ok ['1'], fun _ => none, fun _ => none⟩ "out" ∧
    (∀ gv ∈ ([⟨"a", "v1"⟩, ⟨"b", "v1"⟩] : List GroupVersion),
      stepGood ⟨fun _ => .ok ['1'], fun _ => none, fun _ => none⟩ "out" gv) ∧
    fetchesOf (extractDocs ⟨fun _ => .ok ['1'], fun _ => none, fun _ => none⟩
        "out" [⟨"a", "v1"⟩, ⟨"b", "v1"⟩]).1 =
      ["/openapi/v2", "/openapi/v3/apis/a/v1", "/openapi/v3/apis/b/v1"] := by
  have hv2 : v2Good ⟨fun _ => .ok ['1'], fun _ => none, fun _ => none⟩ "out" :=
    ⟨⟨['1'], ['1'], rfl, rfl⟩, rfl, rfl⟩
  have h3 : ∀ gv ∈ ([⟨"a", "v1"⟩, ⟨"b", "v1"⟩] : List GroupVersion),
      stepGood ⟨fun _ => .ok ['1'], fun _ => none, fun _ => none⟩ "out" gv := by
    intro gv _
    exact ⟨⟨['1'], ['1'], rfl, rfl⟩, rfl, rfl⟩
  refine ⟨hv2, h3, ?_⟩
  rw [(extraction_sequential_in_registration_order _ "out" _ hv2 h3).2]
  decide

/-- C8: the v3 destination filename is exactly
`apis__<group>__<version>_openapi.json` under the `v3` subdirectory of the
output directory, and the v2 document is written as `swagger.json` in the
output directory itself. -/
theorem v3_filename_convention (g v outputDir : String) (env : FetchEnv)
    (h2 : v2Good env outputDir) (h3 : stepGood env outputDir ⟨g, v⟩) :
    fileNameOf ⟨g, v⟩ = "apis__" ++ g ++ "__" ++ v ++ "_openapi.json" ∧
    v3DirOf outputDir = outputDir ++ "/v3" ∧
    fileNameOf ⟨"foo.example.com", "v1"⟩ =
      "apis__foo.example.com__v1_openapi.json" ∧
    (extractDocs env outputDir [⟨g, v⟩]).1 =
      [.fetch "/openapi/v2", .mkdir outputDir,
       .write (writeFilePath outputDir "swagger.json")
         (indentedOf env "/openapi/v2"),
       .fetch (v3PathOf ⟨g, v⟩), .mkdir (v3DirOf outputDir),
       .write (writeFilePath (v3DirOf outputDir) (fileNameOf ⟨g, v⟩))
         (indentedOf env (v3PathOf ⟨g, v⟩))] := by
  refine ⟨rfl, rfl, by decide, ?_⟩
  have hall : ∀ gv ∈ ([⟨g, v⟩] : List GroupVersion), stepGood env outputDir gv := by
    intro gv hgv
    simp only [List.mem_singleton] at hgv
    subst hgv
    exact h3
  rw [extractDocs_all_ok env outputDir [⟨g, v⟩] h2 hall]
  simp [canonicalV2Acts, canonicalV3Acts, v3StepActs, v3FileOf]

/-- Witness for C8: concrete group `foo.example.com`, version `v1`. -/
theorem v3_filename_convention_witness :
    v2Good ⟨fun _ => .ok ['1'], fun _ => none, fun _ => none⟩ "out" ∧
    stepGood ⟨fun _ => .ok ['1'], fun _ => none, fun _ => none⟩ "out"
      ⟨"foo.example.com", "v1"⟩ ∧
    fileNameOf ⟨"foo.example.com", "v1"⟩ =
      "apis__foo.example.com__v1_openapi.json" := by
  have hv2 : v2Good ⟨fun _ => .ok ['1'], fun _ => none, fun _ => none⟩ "out" :=
    ⟨⟨['1'], ['1'], rfl, rfl⟩, rfl, rfl⟩
  have h3 : stepGood ⟨fun _ => .ok ['1'], fun _ => none, fun _ => none⟩ "out"
      ⟨"foo.example.com", "v1"⟩ :=
    ⟨⟨['1'], ['1'], rfl, rfl⟩, rfl, rfl⟩
  exact ⟨hv2, h3,
    (v3_filename_convention "foo.example.com" "v1" "out" _ hv2 h3).2.2.1⟩

/-- C7: if the v3 step fails at index `k` (here: at the head of
`gvK :: post`), the remaining group-versions are not extracted, the run is
reported as failed, and the files already written — one per group-version
before index `k`, plus `swagger.json` — remain on disk with their contents
unchanged. -/
theorem v3_failure_aborts_run_keeps_files (env : FetchEnv) (outputDir : String)
    (pre : List GroupVersion) (gvK : GroupVersion) (post : List GroupVersion)
    (hout : outputDir ≠ "")
    (h2 : v2Good env outputDir)
    (hpre : ∀ gv ∈ pre, stepGood env outputDir gv)
    (hfail : (extractOpenAPIv3 env outputDir [gvK]).2.isSome = true)
    (hn : ∀ gv ∈ pre, normalComp (fileNameOf gv).data = true)
    (hinj : ∀ gv1 ∈ pre, ∀ gv2 ∈ pre, fileNameOf gv1 = fileNameOf gv2 →
      v3PathOf gv1 = v3PathOf gv2) :
    (extractDocs env outputDir (pre ++ gvK :: post)).2.isSome = true ∧
    (extractDocs env outputDir (pre ++ gvK :: post)).1 =
      canonicalV2Acts env outputDir ++ canonicalV3Acts env outputDir pre ++
        (extractOpenAPIv3 env outputDir [gvK]).1 ∧
    (∀ gv ∈ pre,
      diskLookup (applyActs (extractDocs env outputDir (pre ++ gvK :: post)).1 [])
          (v3FileOf outputDir gv) =
        some (indentedOf env (v3PathOf gv))) ∧
    diskLookup (applyActs (extractDocs env outputDir (pre ++ gvK :: post)).1 [])
        (writeFilePath outputDir "swagger.json") =
      some (indentedOf env "/openapi/v2") := by
  have hpref := extractOpenAPIv3_prefix env outputDir pre (gvK :: post) hpre
  have hhead := extractOpenAPIv3_fail_head env outputDir gvK post hfail
  rw [hhead] at hpref
  obtain ⟨e, he⟩ := Option.isSome_iff_exists.mp hfail
  rw [he] at hpref
  have hdocs : extractDocs env outputDir (pre ++ gvK :: post) =
      (canonicalV2Acts env outputDir ++
        (canonicalV3Acts env outputDir pre ++
          (extractOpenAPIv3 env outputDir [gvK]).1),
       some ("failed to extract OpenAPI v3 spec: " ++ e)) := by
    simp only [extractDocs, extractOpenAPIv2_ok env outputDir h2, hpref]
  have hacts : (extractDocs env outputDir (pre ++ gvK :: post)).1 =
      canonicalV2Acts env outputDir ++
        (canonicalV3Acts env outputDir pre ++
          (extractOpenAPIv3 env outputDir [gvK]).1) := by
    rw [hdocs]
  have hsome : (extractDocs env outputDir (pre ++ gvK :: post)).2 =
      some ("failed to extract OpenAPI v3 spec: " ++ e) := by
    rw [hdocs]
  refine ⟨?_, ?_, ?_, ?_⟩
  · rw [hsome]; rfl
  · rw [hacts, List.append_assoc]
  · intro gv hgv
    rw [hacts, applyActs_append, applyActs_append]
    apply applyActs_preserve
    · exact canonicalV3_lookup env outputDir hout pre hn hinj
        (applyActs (canonicalV2Acts env outputDir) []) gv hgv
    · intro q c' hw _
      exact absurd hw (failStep_no_writes env outputDir gvK hfail q c')
  · rw [hacts, applyActs_append, applyActs_append]
    apply applyActs_preserve
    · apply applyActs_preserve
      · exact diskLookup_write_self [] (writeFilePath outputDir "swagger.json")
          (indentedOf env "/openapi/v2")
      · intro q c' hw hq
        exfalso
        obtain ⟨gv', hgv', hql, _⟩ :=
          canonicalV3_write_mem env outputDir pre q c' hw
        exact swagger_ne_v3File outputDir gv' hout (hn gv' hgv')
          (hq.symm.trans hql)
    · intro q c' hw _
      exact absurd hw (failStep_no_writes env outputDir gvK hfail q c')

/-- An oracle whose v3 fetch for group `b` fails while everything else
succeeds. -/
def failEnv : FetchEnv :=
  ⟨fun p => if p = "/openapi/v3/apis/b/v1" then Except.error "boom"
    else Except.ok ['1'],
   fun _ => none, fun _ => none⟩

/-- Witness for C7: group `a` is written before group `b` fails; the run
fails but `a`'s file is still on disk. -/
theorem v3_failure_aborts_run_keeps_files_witness :
    (extractOpenAPIv3 failEnv "out" [⟨"b", "v1"⟩]).2.isSome = true ∧
    (extractDocs failEnv "out"
        ([⟨"a", "v1"⟩] ++ ⟨"b", "v1"⟩ :: [⟨"c", "v1"⟩])).2.isSome = true ∧
    diskLookup (applyActs (extractDocs failEnv "out"
          ([⟨"a", "v1"⟩] ++ ⟨"b", "v1"⟩ :: [⟨"c", "v1"⟩])).1 [])
        (v3FileOf "out" ⟨"a", "v1"⟩) =
      some (indentedOf failEnv (v3PathOf ⟨"a", "v1"⟩)) := by
  have h2 : v2Good failEnv "out" := ⟨⟨['1'], ['1'], rfl, rfl⟩, rfl, rfl⟩
  have hpre : ∀ gv ∈ ([⟨"a", "v1"⟩] : List GroupVersion),
      stepGood failEnv "out" gv := by
    intro gv hgv
    simp only [List.mem_singleton] at hgv
    subst hgv
    exact ⟨⟨['1'], ['1'], rfl, rfl⟩, rfl, rfl⟩
  have hfail : (extractOpenAPIv3 failEnv "out" [⟨"b", "v1"⟩]).2.isSome = true := by
    decide
  have hres := v3_failure_aborts_run_keeps_files failEnv "out"
    [⟨"a", "v1"⟩] ⟨"b", "v1"⟩ [⟨"c", "v1"⟩] (by decide) h2 hpre hfail
    (by decide) (by decide)
  exact ⟨hfail, hres.1, hres.2.2.1 ⟨"a", "v1"⟩ (by simp)⟩

/-- C10: duplicate registered descriptors for the same (group, version) do
not fail the run: the readiness set deduplicates (it is duplicate-free and
contains exactly the registered pairs), extraction still performs one fetch
per descriptor, the duplicate writes land on the same filename so the disk
holds no duplicate paths, and each registered group-version's file holds its
(last-written) document. -/
theorem duplicate_groupversions_tolerated (env : FetchEnv) (outputDir : String)
    (services : List GroupVersion) (hout : outputDir ≠ "")
    (h2 : v2Good env outputDir)
    (h3 : ∀ gv ∈ services, stepGood env outputDir gv)
    (hn : ∀ gv ∈ services, normalComp (fileNameOf gv).data = true)
    (hinj : ∀ gv1 ∈ services, ∀ gv2 ∈ services,
      fileNameOf gv1 = fileNameOf gv2 → v3PathOf gv1 = v3PathOf gv2) :
    (extractDocs env outputDir services).2 = none ∧
    (gvSetOf services).Nodup ∧
    (∀ gv, gv ∈ gvSetOf services ↔ gv ∈ services) ∧
    fetchesOf (extractDocs env outputDir services).1 =
      "/openapi/v2" :: services.map v3PathOf ∧
    ((applyActs (extractDocs env outputDir services).1 []).map Prod.fst).Nodup ∧
    (∀ gv ∈ services,
      diskLookup (applyActs (extractDocs env outputDir services).1 [])
          (v3FileOf outputDir gv) =
        some (indentedOf env (v3PathOf gv))) := by
  have hdocs := extractDocs_all_ok env outputDir services h2 h3
  have hacts : (extractDocs env outputDir services).1 =
      canonicalV2Acts env outputDir ++ canonicalV3Acts env outputDir services := by
    rw [hdocs]
  refine ⟨by rw [hdocs], gvSetOf_nodup services,
    fun gv => gvSetOf_mem services gv, ?_, ?_, ?_⟩
  · rw [hacts]
    exact fetchesOf_canonical env outputDir services
  · rw [hacts]
    exact applyActs_keys_nodup _ [] (by simp)
  · intro gv hgv
    rw [hacts, applyActs_append]
    exact canonicalV3_lookup env outputDir hout services hn hinj
      (applyActs (canonicalV2Acts env outputDir) []) gv hgv

/-- Witness for C10: the same pair registered twice; the run succeeds, the
readiness set is duplicate-free, two v3 fetches happen, and the single file
holds the document. -/
theorem duplicate_groupversions_tolerated_witness :
    v2Good ⟨fun _ => .ok ['1'], fun _ => none, fun _ => none⟩ "out" ∧
    (∀ gv ∈ ([⟨"a", "v1"⟩, ⟨"a", "v1"⟩] : List GroupVersion),
      stepGood ⟨fun _ => .ok ['1'], fun _ => none, fun _ => none⟩ "out" gv) ∧
    (extractDocs ⟨fun _ => .ok ['1'], fun _ => none, fun _ => none⟩ "out"
        [⟨"a", "v1"⟩, ⟨"a", "v1"⟩]).2 = none ∧
    (gvSetOf [⟨"a", "v1"⟩, ⟨"a", "v1"⟩]).Nodup := by
  have h2 : v2Good ⟨fun _ => .ok ['1'], fun _ => none, fun _ => none⟩ "out" :=
    ⟨⟨['1'], ['1'], rfl, rfl⟩, rfl, rfl⟩
  have h3 : ∀ gv ∈ ([⟨"a", "v1"⟩, ⟨"a", "v1"⟩] : List GroupVersion),
      stepGood ⟨fun _ => .ok ['1'], fun _ => none, fun _ => none⟩ "out" gv := by
    intro gv _
    exact ⟨⟨['1'], ['1'], rfl, rfl⟩, rfl, rfl⟩
  have hres := duplicate_groupversions_tolerated
    ⟨fun _ => .ok ['1'], fun _ => none, fun _ => none⟩ "out"
    [⟨"a", "v1"⟩, ⟨"a", "v1"⟩] (by decide) h2 h3 (by decide) (by decide)
  exact ⟨h2, h3, hres.1, hres.2.1⟩
